import Mathlib

/-!
Verification of the maze generation and solving code of the repository
`vvp_bludiste`.  The repository has two near-identical implementations of the
`Maze` class:

* `src/code/maze.py` — a dense variant: the graph is a dense 0/1 adjacency
  matrix, reachability and shortest paths are computed by a queue-based BFS
  (`find_shortest_path`, `shortest_check`), and `generate_maze` tracks the
  current shortest path, re-checking solvability only when the walled cell
  lies on that path.

* `src/maze_code/maze.py` — a sparse variant: the graph is a CSR sparse
  boolean matrix, reachability is computed by repeated matrix–vector
  multiplication (`shortest_check`), and `generate_maze` re-checks
  solvability after every candidate.

This file embeds both variants shallowly: grids are boolean functions of the
two cell coordinates (`true` = wall, `false` = open), the incidence matrix of
the dense variant is a boolean function of the two node ids, and the CSR
matrix of the sparse variant is a pair of such functions (the stored
positions, which never change, and the data values, which `generate_maze`
toggles column-wise).  Random candidate orders are universally quantified
lists, so every theorem quantifies over every possible shuffle.
-/

/-- Cell `(r, c)` of grid `g` is open (the Python arrays store `True` for a
wall, so open is the value `false`). -/
def cellOpen (g : Nat → Nat → Bool) (r c : Nat) : Prop := g r c = false

/-- Mark the cell of node id `num` as a wall; this is the translation of
`maze[num // width, num % width] = 1`. -/
def wallCell (w num : Nat) (g : Nat → Nat → Bool) : Nat → Nat → Bool :=
  fun r c => if r = num / w ∧ c = num % w then true else g r c

/-- Mark the cell of node id `num` as open; this is the translation of
`maze[num // width, num % width] = 0`, used by the rollback branch of
`generate_maze` in both variants. -/
def openCell (w num : Nat) (g : Nat → Nat → Bool) : Nat → Nat → Bool :=
  fun r c => if r = num / w ∧ c = num % w then false else g r c

/-- Translation of `Maze.incident` (identical in both source files): entry
`(a, b)` of the adjacency matrix is set iff some open cell `(i, j)` writes it
together with its open lower neighbour `(i+1, j)` or its open right neighbour
`(i, j+1)`; each pair of writes `incident_matrix[r, c] = 1`,
`incident_matrix[c, r] = 1` appears as the two symmetric disjuncts. -/
def incident (h w : Nat) (g : Nat → Nat → Bool) : Nat → Nat → Bool := fun a b =>
  (List.range h).any fun i => (List.range w).any fun j =>
    !g i j &&
      ((decide (i ≠ h - 1) && !g (i+1) j &&
          ((decide (a = i*w+j) && decide (b = (i+1)*w+j)) ||
           (decide (b = i*w+j) && decide (a = (i+1)*w+j)))) ||
       (decide (j ≠ w - 1) && !g i (j+1) &&
          ((decide (a = i*w+j) && decide (b = i*w+j+1)) ||
           (decide (b = i*w+j) && decide (a = i*w+j+1)))))

/-- Unfolded form of `incident`: the matrix entry `(a, b)` is `1` exactly when
some open cell and an open lower or right neighbour of it carry the node ids
`a` and `b` in either order. -/
lemma incident_eq_true_iff (h w : Nat) (g : Nat → Nat → Bool) (a b : Nat) :
    incident h w g a b = true ↔
      ∃ i, i < h ∧ ∃ j, j < w ∧ g i j = false ∧
        ((i ≠ h - 1 ∧ g (i+1) j = false ∧
            ((a = i*w+j ∧ b = (i+1)*w+j) ∨ (b = i*w+j ∧ a = (i+1)*w+j))) ∨
         (j ≠ w - 1 ∧ g i (j+1) = false ∧
            ((a = i*w+j ∧ b = i*w+j+1) ∨ (b = i*w+j ∧ a = i*w+j+1)))) := by
  simp only [incident, List.any_eq_true, List.mem_range, Bool.and_eq_true,
    Bool.or_eq_true, decide_eq_true_eq, Bool.not_eq_true']
  constructor
  · rintro ⟨i, hi, j, hj, hopen, hrest⟩
    exact ⟨i, hi, j, hj, hopen, by tauto⟩
  · rintro ⟨i, hi, j, hj, hopen, hrest⟩
    exact ⟨i, hi, j, hj, hopen, by tauto⟩

/-- The `incident` matrix is symmetric: every write to `(r, c)` is paired with
a write to `(c, r)` in the source. -/
lemma incident_symm (h w : Nat) (g : Nat → Nat → Bool) (a b : Nat) :
    incident h w g a b = incident h w g b a := by
  have key : ∀ x y : Nat, incident h w g x y = true → incident h w g y x = true := by
    intro x y hxy
    rw [incident_eq_true_iff] at hxy ⊢
    obtain ⟨i, hi, j, hj, hopen, hrest⟩ := hxy
    exact ⟨i, hi, j, hj, hopen, by tauto⟩
  cases hab : incident h w g a b
  · cases hba : incident h w g b a
    · rfl
    · exact absurd (key b a hba) (by simp [hab])
  · exact (key a b hab).symm

lemma node_div_mul_add (i j w : Nat) (hj : j < w) : (i * w + j) / w = i := by
  have hw : 0 < w := by omega
  rw [Nat.mul_comm, Nat.mul_add_div hw, Nat.div_eq_of_lt hj, Nat.add_zero]

lemma node_mod_mul_add (i j w : Nat) (hj : j < w) : (i * w + j) % w = j := by
  rw [Nat.mul_comm, Nat.mul_add_mod, Nat.mod_eq_of_lt hj]

/-- A node id determines its cell coordinates and conversely. -/
lemma node_eq_iff (r c num w : Nat) (hc : c < w) :
    r * w + c = num ↔ (r = num / w ∧ c = num % w) := by
  constructor
  · rintro rfl
    exact ⟨(node_div_mul_add r c w hc).symm, (node_mod_mul_add r c w hc).symm⟩
  · rintro ⟨rfl, rfl⟩
    rw [Nat.mul_comm]
    exact Nat.div_add_mod num w

lemma node_lt (i j h w : Nat) (hi : i < h) (hj : j < w) : i * w + j < h * w := by
  calc i * w + j < i * w + w := by omega
  _ = (i + 1) * w := by ring
  _ ≤ h * w := Nat.mul_le_mul_right w hi

/-- Both endpoints of an `incident` edge are in-range node ids of open cells. -/
lemma incident_bounds (h w : Nat) (g : Nat → Nat → Bool) (a b : Nat)
    (hab : incident h w g a b = true) :
    a < h * w ∧ b < h * w ∧ g (a / w) (a % w) = false ∧ g (b / w) (b % w) = false := by
  rw [incident_eq_true_iff] at hab
  obtain ⟨i, hi, j, hj, hopen, hrest⟩ := hab
  rcases hrest with ⟨hih, hopen2, hab⟩ | ⟨hjw, hopen2, hab⟩
  · have hi1 : i + 1 < h := by omega
    have l1 : i * w + j < h * w := node_lt i j h w hi hj
    have l2 : (i+1) * w + j < h * w := node_lt (i+1) j h w hi1 hj
    have d1 : (i * w + j) / w = i := node_div_mul_add i j w hj
    have m1 : (i * w + j) % w = j := node_mod_mul_add i j w hj
    have d2 : ((i+1) * w + j) / w = i + 1 := node_div_mul_add (i+1) j w hj
    have m2 : ((i+1) * w + j) % w = j := node_mod_mul_add (i+1) j w hj
    rcases hab with ⟨rfl, rfl⟩ | ⟨rfl, rfl⟩ <;>
      simp_all
  · have hj1 : j + 1 < w := by omega
    have l1 : i * w + j < h * w := node_lt i j h w hi hj
    have l2 : i * w + (j+1) < h * w := node_lt i (j+1) h w hi hj1
    have d1 : (i * w + j) / w = i := node_div_mul_add i j w hj
    have m1 : (i * w + j) % w = j := node_mod_mul_add i j w hj
    have d2 : (i * w + (j+1)) / w = i := node_div_mul_add i (j+1) w hj1
    have m2 : (i * w + (j+1)) % w = j + 1 := node_mod_mul_add i (j+1) w hj1
    rcases hab with ⟨rfl, rfl⟩ | ⟨rfl, rfl⟩ <;>
      · refine ⟨by omega, by omega, ?_, ?_⟩ <;> simp_all [Nat.add_assoc]

/-- Openness of a cell of the walled grid, phrased through the node id of the
cell. -/
lemma wallCell_open_iff (w num : Nat) (g : Nat → Nat → Bool) (r c : Nat) (hc : c < w) :
    wallCell w num g r c = false ↔ (g r c = false ∧ r * w + c ≠ num) := by
  unfold wallCell
  by_cases hrc : r = num / w ∧ c = num % w
  · simp only [if_pos hrc]
    have : r * w + c = num := (node_eq_iff r c num w hc).2 hrc
    simp [this]
  · simp only [if_neg hrc]
    have hne : r * w + c ≠ num := fun hEq => hrc ((node_eq_iff r c num w hc).1 hEq)
    tauto

/-- Walling the cell of node `num` removes exactly the row and the column of
`num` from the `incident` matrix.  This is the grid-level counterpart of
`incident_matrix[num, :] = 0; incident_matrix[:, num] = 0` in the dense
`generate_maze`. -/
lemma incident_wallCell_iff (h w num : Nat) (g : Nat → Nat → Bool) (a b : Nat) :
    incident h w (wallCell w num g) a b = true ↔
      (a ≠ num ∧ b ≠ num ∧ incident h w g a b = true) := by
  constructor
  · intro hg'
    rw [incident_eq_true_iff] at hg'
    obtain ⟨i, hi, j, hj, hopen, hrest⟩ := hg'
    rcases hrest with ⟨hih, hopen2, hab⟩ | ⟨hjw, hopen2, hab⟩
    · obtain ⟨ho1, hn1⟩ := (wallCell_open_iff w num g i j hj).1 hopen
      obtain ⟨ho2, hn2⟩ := (wallCell_open_iff w num g (i+1) j hj).1 hopen2
      have hg : incident h w g a b = true := by
        rw [incident_eq_true_iff]
        exact ⟨i, hi, j, hj, ho1, Or.inl ⟨hih, ho2, hab⟩⟩
      rcases hab with ⟨rfl, rfl⟩ | ⟨rfl, rfl⟩
      · exact ⟨hn1, hn2, hg⟩
      · exact ⟨hn2, hn1, hg⟩
    · have hj1 : j + 1 < w := by omega
      obtain ⟨ho1, hn1⟩ := (wallCell_open_iff w num g i j hj).1 hopen
      obtain ⟨ho2, hn2⟩ := (wallCell_open_iff w num g i (j+1) hj1).1 hopen2
      have hg : incident h w g a b = true := by
        rw [incident_eq_true_iff]
        exact ⟨i, hi, j, hj, ho1, Or.inr ⟨hjw, ho2, hab⟩⟩
      have hadd : i * w + (j + 1) = i * w + j + 1 := by omega
      rw [hadd] at hn2
      rcases hab with ⟨rfl, rfl⟩ | ⟨rfl, rfl⟩
      · exact ⟨hn1, hn2, hg⟩
      · exact ⟨hn2, hn1, hg⟩
  · rintro ⟨ha, hb, hg⟩
    rw [incident_eq_true_iff] at hg ⊢
    obtain ⟨i, hi, j, hj, hopen, hrest⟩ := hg
    rcases hrest with ⟨hih, hopen2, hab⟩ | ⟨hjw, hopen2, hab⟩
    · rcases hab with ⟨rfl, rfl⟩ | ⟨rfl, rfl⟩
      · exact ⟨i, hi, j, hj, (wallCell_open_iff w num g i j hj).2 ⟨hopen, ha⟩,
          Or.inl ⟨hih, (wallCell_open_iff w num g (i+1) j hj).2 ⟨hopen2, hb⟩,
            Or.inl ⟨rfl, rfl⟩⟩⟩
      · exact ⟨i, hi, j, hj, (wallCell_open_iff w num g i j hj).2 ⟨hopen, hb⟩,
          Or.inl ⟨hih, (wallCell_open_iff w num g (i+1) j hj).2 ⟨hopen2, ha⟩,
            Or.inr ⟨rfl, rfl⟩⟩⟩
    · have hj1 : j + 1 < w := by omega
      have hadd : i * w + (j + 1) = i * w + j + 1 := by omega
      rcases hab with ⟨rfl, rfl⟩ | ⟨rfl, rfl⟩
      · refine ⟨i, hi, j, hj, (wallCell_open_iff w num g i j hj).2 ⟨hopen, ha⟩,
          Or.inr ⟨hjw, (wallCell_open_iff w num g i (j+1) hj1).2 ⟨hopen2, ?_⟩,
            Or.inl ⟨rfl, rfl⟩⟩⟩
        omega
      · refine ⟨i, hi, j, hj, (wallCell_open_iff w num g i j hj).2 ⟨hopen, hb⟩,
          Or.inr ⟨hjw, (wallCell_open_iff w num g i (j+1) hj1).2 ⟨hopen2, ?_⟩,
            Or.inr ⟨rfl, rfl⟩⟩⟩
        omega

/-- Boolean form of `incident_wallCell_iff`. -/
lemma incident_wallCell (h w num : Nat) (g : Nat → Nat → Bool) (a b : Nat) :
    incident h w (wallCell w num g) a b =
      (!decide (a = num) && !decide (b = num) && incident h w g a b) := by
  cases hv : incident h w (wallCell w num g) a b
  · by_cases ha : a = num
    · simp [ha]
    · by_cases hb : b = num
      · simp [hb]
      · cases hg : incident h w g a b
        · simp
        · exact absurd ((incident_wallCell_iff h w num g a b).2 ⟨ha, hb, hg⟩)
            (by simp [hv])
  · obtain ⟨ha, hb, hg⟩ := (incident_wallCell_iff h w num g a b).1 hv
    simp [ha, hb, hg]

/-- Transfer of an `incident` edge between two grids: if every open cell of
`g` is open in `g'` as well, every edge of `g` is an edge of `g'`. -/
lemma incident_mono (h w : Nat) (g g' : Nat → Nat → Bool)
    (hsub : ∀ r c, g r c = false → g' r c = false) (a b : Nat)
    (hab : incident h w g a b = true) : incident h w g' a b = true := by
  rw [incident_eq_true_iff] at hab ⊢
  obtain ⟨i, hi, j, hj, hopen, hrest⟩ := hab
  rcases hrest with ⟨hih, hopen2, hab⟩ | ⟨hjw, hopen2, hab⟩
  · exact ⟨i, hi, j, hj, hsub _ _ hopen, Or.inl ⟨hih, hsub _ _ hopen2, hab⟩⟩
  · exact ⟨i, hi, j, hj, hsub _ _ hopen, Or.inr ⟨hjw, hsub _ _ hopen2, hab⟩⟩

/-- If two nodes are `incident`-adjacent in some grid and the corresponding
two cells are open in `g`, the nodes are `incident`-adjacent in `g`: the
geometric part of adjacency does not depend on the grid. -/
lemma incident_of_incident_open (h w : Nat) (tmpl g : Nat → Nat → Bool) (a b : Nat)
    (hab : incident h w tmpl a b = true)
    (hoa : g (a / w) (a % w) = false) (hob : g (b / w) (b % w) = false) :
    incident h w g a b = true := by
  rw [incident_eq_true_iff] at hab ⊢
  obtain ⟨i, hi, j, hj, hopen, hrest⟩ := hab
  rcases hrest with ⟨hih, hopen2, hab⟩ | ⟨hjw, hopen2, hab⟩
  · have d1 : (i * w + j) / w = i := node_div_mul_add i j w hj
    have m1 : (i * w + j) % w = j := node_mod_mul_add i j w hj
    have d2 : ((i+1) * w + j) / w = i + 1 := node_div_mul_add (i+1) j w hj
    have m2 : ((i+1) * w + j) % w = j := node_mod_mul_add (i+1) j w hj
    refine ⟨i, hi, j, hj, ?_, Or.inl ⟨hih, ?_, hab⟩⟩ <;>
      rcases hab with ⟨rfl, rfl⟩ | ⟨rfl, rfl⟩ <;> simp_all
  · have hj1 : j + 1 < w := by omega
    have d1 : (i * w + j) / w = i := node_div_mul_add i j w hj
    have m1 : (i * w + j) % w = j := node_mod_mul_add i j w hj
    have d2 : (i * w + (j+1)) / w = i := node_div_mul_add i (j+1) w hj1
    have m2 : (i * w + (j+1)) % w = j + 1 := node_mod_mul_add i (j+1) w hj1
    have hadd : i * w + (j + 1) = i * w + j + 1 := by omega
    refine ⟨i, hi, j, hj, ?_, Or.inr ⟨hjw, ?_, hab⟩⟩ <;>
      rcases hab with ⟨rfl, rfl⟩ | ⟨rfl, rfl⟩ <;> simp_all

/-- A path as produced by the Python BFS: a non-empty list of node ids that
starts at `s`, ends at `e`, and whose consecutive entries are adjacent in the
matrix `adj`.  Repeated nodes are allowed (this is a walk), so statements of
minimality over `IsPathList` are stronger than over simple paths. -/
def IsPathList (adj : Nat → Nat → Bool) (s e : Nat) (p : List Nat) : Prop :=
  p ≠ [] ∧ p.head? = some s ∧ p.getLast? = some e ∧
    p.Chain' (fun a b => adj a b = true)

instance isPathList_decidable (adj : Nat → Nat → Bool) (s e : Nat) (p : List Nat) :
    Decidable (IsPathList adj s e p) :=
  inferInstanceAs (Decidable (_ ∧ _ ∧ _ ∧ _))

/-- Node `e` is reachable from node `s` in the graph `adj`. -/
def Reachable (adj : Nat → Nat → Bool) (s e : Nat) : Prop :=
  ∃ p, IsPathList adj s e p

lemma isPathList_singleton (adj : Nat → Nat → Bool) (s : Nat) :
    IsPathList adj s s [s] := by
  refine ⟨by simp, rfl, rfl, by simp⟩

lemma IsPathList.length_pos {adj : Nat → Nat → Bool} {s e : Nat} {p : List Nat}
    (h : IsPathList adj s e p) : 1 ≤ p.length := by
  rcases p with _ | ⟨a, t⟩
  · exact absurd rfl h.1
  · simp

lemma IsPathList.head_eq {adj : Nat → Nat → Bool} {s e : Nat} {a : Nat} {t : List Nat}
    (h : IsPathList adj s e (a :: t)) : a = s := by
  have := h.2.1
  simpa using this

lemma IsPathList.snoc {adj : Nat → Nat → Bool} {s c i : Nat} {p : List Nat}
    (h : IsPathList adj s c p) (hadj : adj c i = true) :
    IsPathList adj s i (p ++ [i]) := by
  obtain ⟨hne, hhead, hlast, hchain⟩ := h
  refine ⟨by simp, ?_, ?_, ?_⟩
  · rw [List.head?_append_of_ne_nil _ hne]
    exact hhead
  · rw [List.getLast?_append_cons]
    rfl
  · rw [List.chain'_append]
    refine ⟨hchain, by simp, ?_⟩
    intro x hx y hy
    simp only [List.head?_cons, Option.mem_def, Option.some.injEq] at hy
    rw [hlast] at hx
    simp only [Option.mem_def, Option.some.injEq] at hx
    subst hx; subst hy
    exact hadj

lemma IsPathList.eq_of_length_one {adj : Nat → Nat → Bool} {s e : Nat} {p : List Nat}
    (h : IsPathList adj s e p) (hlen : p.length = 1) : s = e := by
  rcases p with _ | ⟨a, t⟩
  · exact absurd rfl h.1
  · rcases t with _ | ⟨b, t'⟩
    · have h1 := h.head_eq
      have h2 := h.2.2.1
      simp only [List.getLast?_singleton, Option.some.injEq] at h2
      omega
    · simp at hlen

lemma IsPathList.decomp {adj : Nat → Nat → Bool} {s e : Nat} {p : List Nat}
    (h : IsPathList adj s e p) (hlen : 2 ≤ p.length) :
    ∃ q u, p = q ++ [e] ∧ IsPathList adj s u q ∧ adj u e = true ∧
      q.length + 1 = p.length := by
  obtain ⟨hne, hhead, hlast, hchain⟩ := h
  have hgl : p.getLast hne = e := by
    have := List.getLast?_eq_getLast_of_ne_nil hne
    rw [this] at hlast
    exact Option.some.inj hlast
  have hsplit : p.dropLast ++ [e] = p := by
    rw [← hgl]; exact List.dropLast_append_getLast hne
  have hqne : p.dropLast ≠ [] := by
    have : p.dropLast.length + 1 = p.length := by
      rw [← hsplit]; simp
    intro hq
    rw [hq] at this
    simp at this
    omega
  have hqlast := List.getLast?_eq_getLast_of_ne_nil hqne
  refine ⟨p.dropLast, p.dropLast.getLast hqne, hsplit.symm, ⟨hqne, ?_, hqlast, ?_⟩, ?_, ?_⟩
  · rw [← hsplit] at hhead
    rwa [List.head?_append_of_ne_nil _ hqne] at hhead
  · rw [← hsplit] at hchain
    exact (List.chain'_append.1 hchain).1
  · rw [← hsplit] at hchain
    have hlink := (List.chain'_append.1 hchain).2.2
    exact hlink _ (by rw [hqlast]; rfl) e rfl
  · rw [← hsplit]; simp

lemma IsPathList.mem_start {adj : Nat → Nat → Bool} {s e : Nat} {p : List Nat}
    (h : IsPathList adj s e p) : s ∈ p := by
  rcases p with _ | ⟨a, t⟩
  · exact absurd rfl h.1
  · rw [← h.head_eq]; exact List.mem_cons_self a t

lemma IsPathList.mem_end {adj : Nat → Nat → Bool} {s e : Nat} {p : List Nat}
    (h : IsPathList adj s e p) : e ∈ p := by
  have hne := h.1
  have hgl : p.getLast hne = e := by
    have h1 := List.getLast?_eq_getLast_of_ne_nil hne
    have h2 := h.2.2.1
    rw [h1] at h2
    exact Option.some.inj h2
  rw [← hgl]
  exact List.getLast_mem hne

/-- All nodes of a path are in range, provided the adjacency matrix only
relates in-range nodes and the start node is in range. -/
lemma IsPathList.nodes_lt {adj : Nat → Nat → Bool} {n e : Nat}
    (hadj : ∀ u v, adj u v = true → u < n ∧ v < n) :
    ∀ {p : List Nat} {s : Nat}, IsPathList adj s e p → s < n → ∀ v ∈ p, v < n := by
  intro p
  induction p with
  | nil => intro s h; exact absurd rfl h.1
  | cons a t ih =>
    intro s h hs v hv
    have ha : a = s := h.head_eq
    rcases t with _ | ⟨b, t'⟩
    · simp only [List.mem_singleton] at hv
      omega
    · have hchain := h.2.2.2
      rw [List.chain'_cons] at hchain
      have hab : adj a b = true := hchain.1
      have hb : b < n := (hadj a b hab).2
      have htail : IsPathList adj b e (b :: t') := by
        refine ⟨by simp, rfl, ?_, hchain.2⟩
        have := h.2.2.1
        rwa [List.getLast?_cons_cons] at this
      rcases List.mem_cons.1 hv with rfl | hv'
      · omega
      · exact ih htail hb v hv'

lemma chain'_congr_mem {R S : Nat → Nat → Prop} :
    ∀ {p : List Nat}, List.Chain' R p →
      (∀ a ∈ p, ∀ b ∈ p, R a b → S a b) → List.Chain' S p
  | [], _, _ => List.chain'_nil
  | [_], _, _ => List.chain'_singleton _
  | a :: b :: t, hch, himp => by
    rw [List.chain'_cons] at hch ⊢
    refine ⟨himp a (by simp) b (by simp) hch.1, ?_⟩
    exact chain'_congr_mem hch.2 fun x hx y hy hR =>
      himp x (List.mem_cons_of_mem a hx) y (List.mem_cons_of_mem a hy) hR

/-- A path transfers to another adjacency matrix that agrees on its nodes. -/
lemma IsPathList.congr_adj {adj adj2 : Nat → Nat → Bool} {s e : Nat} {p : List Nat}
    (h : IsPathList adj s e p)
    (hagree : ∀ a ∈ p, ∀ b ∈ p, adj a b = true → adj2 a b = true) :
    IsPathList adj2 s e p :=
  ⟨h.1, h.2.1, h.2.2.1, chain'_congr_mem h.2.2.2 hagree⟩

lemma exists_dup_split : ∀ (l : List Nat), ¬ l.Nodup →
    ∃ l1 a l2 l3, l = l1 ++ a :: (l2 ++ a :: l3)
  | [], h => absurd List.nodup_nil h
  | a :: t, h => by
    rw [List.nodup_cons] at h
    push_neg at h
    by_cases hmem : a ∈ t
    · obtain ⟨t1, t2, rfl⟩ := List.append_of_mem hmem
      exact ⟨[], a, t1, t2, rfl⟩
    · obtain ⟨l1, b, l2, l3, rfl⟩ := exists_dup_split t (h hmem)
      exact ⟨a :: l1, b, l2, l3, rfl⟩

/-- Cutting a path between two occurrences of the same node yields a shorter
path with the same endpoints. -/
lemma path_splice {adj : Nat → Nat → Bool} {s e a : Nat} {l1 l2 l3 : List Nat}
    (h : IsPathList adj s e (l1 ++ a :: (l2 ++ a :: l3))) :
    IsPathList adj s e (l1 ++ a :: l3) := by
  obtain ⟨hne, hhead, hlast, hchain⟩ := h
  refine ⟨by simp, ?_, ?_, ?_⟩
  · rcases l1 with _ | ⟨x, t⟩
    · simpa using hhead
    · simpa using hhead
  · rw [List.getLast?_append_cons] at hlast ⊢
    have : (a :: (l2 ++ a :: l3)) = (a :: l2) ++ (a :: l3) := by simp
    rw [this, List.getLast?_append_cons] at hlast
    exact hlast
  · have hsplit : (a :: (l2 ++ a :: l3)) = (a :: l2) ++ (a :: l3) := by simp
    rw [List.chain'_append] at hchain
    obtain ⟨c1, c2, link1⟩ := hchain
    rw [hsplit, List.chain'_append] at c2
    obtain ⟨_, c3, _⟩ := c2
    rw [List.chain'_append]
    refine ⟨c1, c3, ?_⟩
    intro x hx y hy
    exact link1 x hx y (by simpa using hy)

lemma path_shorten_aux {adj : Nat → Nat → Bool} {s e : Nat} :
    ∀ (k : Nat) (p : List Nat), p.length ≤ k → IsPathList adj s e p →
      ∃ q, IsPathList adj s e q ∧ q.length ≤ p.length ∧ q.Nodup := by
  intro k
  induction k with
  | zero =>
    intro p hlen h
    have := h.length_pos
    omega
  | succ k ih =>
    intro p hlen h
    by_cases hnd : p.Nodup
    · exact ⟨p, h, le_refl _, hnd⟩
    · obtain ⟨l1, a, l2, l3, rfl⟩ := exists_dup_split p hnd
      have hlen2 : (l1 ++ a :: l3).length ≤ k := by
        simp only [List.length_append, List.length_cons] at hlen ⊢
        omega
      obtain ⟨q, hq, hqlen, hqnd⟩ := ih (l1 ++ a :: l3) hlen2 (path_splice h)
      refine ⟨q, hq, ?_, hqnd⟩
      simp only [List.length_append, List.length_cons] at hqlen ⊢
      omega

lemma path_shorten {adj : Nat → Nat → Bool} {s e : Nat} (p : List Nat)
    (h : IsPathList adj s e p) :
    ∃ q, IsPathList adj s e q ∧ q.length ≤ p.length ∧ q.Nodup :=
  path_shorten_aux p.length p (le_refl _) h

lemma nodup_length_le (p : List Nat) (n : Nat) (hnd : p.Nodup)
    (hlt : ∀ v ∈ p, v < n) : p.length ≤ n := by
  have h1 : p.toFinset.card = p.length := List.toFinset_card_of_nodup hnd
  have h2 : p.toFinset ⊆ Finset.range n := by
    intro x hx
    rw [List.mem_toFinset] at hx
    exact Finset.mem_range.2 (hlt x hx)
  have := Finset.card_le_card h2
  rw [h1, Finset.card_range] at this
  exact this

/-- Queue-based BFS of `Maze.find_shortest_path` / the dense
`Maze.shortest_check`.  The Python code keeps two lists, `queue` of nodes and
`list_of_paths` of the paths to them, popped and appended in lockstep; here
they are one list of pairs.  `visited` is the set of indices holding `True`
in the Python `visited` list.  The loop `for i in domain: if not visited[i]
and incident_matrix[current, i]` appears as the filter on `domain`
(`range(n)` in `find_shortest_path`, the `non_zero` rows in
`shortest_check`).  The structural `fuel` argument only drives the
recursion; `n + 1` is always enough, as the specification lemma shows, so
the `fuel = 0` base case is never taken from the wrappers. -/
def bfsAux (endN : Nat) (domain : List Nat) (adj : Nat → Nat → Bool) :
    Nat → List (Nat × List Nat) → Finset Nat → List Nat
  | 0, _, _ => []
  | _ + 1, [], _ => []
  | fuel + 1, (c, p) :: rest, visited =>
    if c = endN then p
    else
      let new := domain.filter fun i => decide (i ∉ visited) && adj c i
      bfsAux endN domain adj fuel
        (rest ++ new.map fun i => (i, p ++ [i])) (visited ∪ new.toFinset)

lemma pairwise_of_all {α : Type} {R : α → α → Prop} (h : ∀ a b, R a b) :
    ∀ l : List α, l.Pairwise R := by
  intro l
  induction l with
  | nil => exact List.Pairwise.nil
  | cons a t ih => exact List.Pairwise.cons (fun b _ => h a b) ih

/-- Invariant of the BFS loop state.  `n` is the number of nodes, `s` the
start node, `endN` the target.  The fields: every queued pair holds a path
from `s` to its node; queued nodes are visited and in range; path lengths in
the queue are sorted and spread over at most two consecutive values; a
visited node that has left the queue has all its neighbours visited; queued
paths are shortest; the target cannot have left the queue. -/
structure BfsInv (n s endN : Nat) (adj : Nat → Nat → Bool)
    (queue : List (Nat × List Nat)) (visited : Finset Nat) : Prop where
  hstart : s ∈ visited
  hq_path : ∀ cp ∈ queue, IsPathList adj s cp.1 cp.2
  hq_vis : ∀ cp ∈ queue, cp.1 ∈ visited
  hq_lt : ∀ cp ∈ queue, cp.1 < n
  hq_sorted : queue.Pairwise fun a b =>
    a.2.length ≤ b.2.length ∧ b.2.length ≤ a.2.length + 1
  hdone : ∀ v ∈ visited, (∀ cp ∈ queue, cp.1 ≠ v) → ∀ i, adj v i = true → i ∈ visited
  hmin : ∀ cp ∈ queue, ∀ q, IsPathList adj s cp.1 q → cp.2.length ≤ q.length
  hend : endN ∈ visited → ∃ cp ∈ queue, cp.1 = endN

/-- Closure of the visited set: once no queue entry remains, every node
reachable from `s` is visited. -/
lemma visited_closed {adj : Nat → Nat → Bool} {s : Nat} {visited : Finset Nat}
    (hs : s ∈ visited)
    (hclosed : ∀ v ∈ visited, ∀ i, adj v i = true → i ∈ visited) :
    ∀ (k : Nat) (q : List Nat) (v : Nat),
      IsPathList adj s v q → q.length ≤ k → v ∈ visited := by
  intro k
  induction k with
  | zero =>
    intro q v h hlen
    have := h.length_pos
    omega
  | succ k ih =>
    intro q v h hlen
    by_cases h1 : q.length = 1
    · rw [← h.eq_of_length_one h1]
      exact hs
    · have h2 : 2 ≤ q.length := by have := h.length_pos; omega
      obtain ⟨q', u, _, hq', hadj, hqlen⟩ := h.decomp h2
      have hu : u ∈ visited := ih q' u hq' (by omega)
      exact hclosed u hu v hadj

/-- One BFS iteration preserves the invariant: popping `(c, p)` with
`c ≠ endN` and enqueueing the unvisited neighbours of `c` with extended
paths. -/
lemma bfsInv_step {n s endN : Nat} {adj : Nat → Nat → Bool} {domain : List Nat}
    (hdom : ∀ i ∈ domain, i < n) (hnd : domain.Nodup)
    (hcomp : ∀ c i, c < n → adj c i = true → i ∈ domain)
    {c : Nat} {p : List Nat} {rest : List (Nat × List Nat)} {visited : Finset Nat}
    (inv : BfsInv n s endN adj ((c, p) :: rest) visited) (hne : c ≠ endN) :
    BfsInv n s endN adj
      (rest ++ (domain.filter fun i => decide (i ∉ visited) && adj c i).map
        fun i => (i, p ++ [i]))
      (visited ∪ (domain.filter fun i => decide (i ∉ visited) && adj c i).toFinset) := by
  set new := domain.filter fun i => decide (i ∉ visited) && adj c i with hnew
  have hmemnew : ∀ i, i ∈ new ↔ (i ∈ domain ∧ i ∉ visited ∧ adj c i = true) := by
    intro i
    rw [hnew, List.mem_filter]
    simp [Bool.and_eq_true, decide_eq_true_eq, and_assoc]
  have hcpath : IsPathList adj s c p := inv.hq_path (c, p) (by simp)
  have hclt : c < n := inv.hq_lt (c, p) (by simp)
  have hsplitp := List.pairwise_cons.1 inv.hq_sorted
  have hheadmin : ∀ cp ∈ rest,
      p.length ≤ cp.2.length ∧ cp.2.length ≤ p.length + 1 := hsplitp.1
  have hrest_sorted := hsplitp.2
  have key : ∀ (k : Nat) (q : List Nat) (v : Nat), v ∉ visited →
      IsPathList adj s v q → q.length ≤ k → p.length + 1 ≤ q.length := by
    intro k
    induction k with
    | zero =>
      intro q v _ hq hlen
      have := hq.length_pos
      omega
    | succ k ih =>
      intro q v hv hq hlen
      by_cases h1 : q.length = 1
      · exact absurd (hq.eq_of_length_one h1 ▸ inv.hstart) hv
      · have h2 : 2 ≤ q.length := by have := hq.length_pos; omega
        obtain ⟨q', u, _, hq', hadj, hqlen⟩ := hq.decomp h2
        by_cases hu : u ∈ visited
        · by_cases huq : ∀ cp ∈ ((c, p) :: rest), cp.1 ≠ u
          · exact absurd (inv.hdone u hu huq v hadj) hv
          · push_neg at huq
            obtain ⟨cp, hcpmem, hcpu⟩ := huq
            have hqmin : cp.2.length ≤ q'.length :=
              inv.hmin cp hcpmem q' (hcpu ▸ hq')
            have hple : p.length ≤ cp.2.length := by
              rcases List.mem_cons.1 hcpmem with rfl | hmem
              · exact le_refl _
              · exact (hheadmin cp hmem).1
            omega
        · have := ih q' u hu hq' (by omega)
          omega
  constructor
  · exact Finset.mem_union_left _ inv.hstart
  · intro cp hcp
    rcases List.mem_append.1 hcp with hl | hr
    · exact inv.hq_path cp (List.mem_cons_of_mem _ hl)
    · obtain ⟨i, hi, rfl⟩ := List.mem_map.1 hr
      exact hcpath.snoc ((hmemnew i).1 hi).2.2
  · intro cp hcp
    rcases List.mem_append.1 hcp with hl | hr
    · exact Finset.mem_union_left _ (inv.hq_vis cp (List.mem_cons_of_mem _ hl))
    · obtain ⟨i, hi, rfl⟩ := List.mem_map.1 hr
      exact Finset.mem_union_right _ (List.mem_toFinset.2 hi)
  · intro cp hcp
    rcases List.mem_append.1 hcp with hl | hr
    · exact inv.hq_lt cp (List.mem_cons_of_mem _ hl)
    · obtain ⟨i, hi, rfl⟩ := List.mem_map.1 hr
      exact hdom i ((hmemnew i).1 hi).1
  · rw [List.pairwise_append]
    refine ⟨hrest_sorted, ?_, ?_⟩
    · rw [List.pairwise_map]
      exact pairwise_of_all (fun a b => by simp) _
    · intro a ha b hb
      obtain ⟨i, hi, rfl⟩ := List.mem_map.1 hb
      have := hheadmin a ha
      constructor
      · simpa using this.2
      · simp only [List.length_append, List.length_cons, List.length_nil]
        omega
  · intro v hv hnot i hadjvi
    rcases Finset.mem_union.1 hv with hv | hv
    · by_cases hvc : v = c
      · subst hvc
        by_cases hi : i ∈ visited
        · exact Finset.mem_union_left _ hi
        · refine Finset.mem_union_right _ (List.mem_toFinset.2 ?_)
          exact (hmemnew i).2 ⟨hcomp v i hclt hadjvi, hi, hadjvi⟩
      · have hnot' : ∀ cp ∈ ((c, p) :: rest), cp.1 ≠ v := by
          intro cp hcp
          rcases List.mem_cons.1 hcp with rfl | hmem
          · exact fun hh => hvc hh.symm
          · exact hnot cp (List.mem_append_left _ hmem)
        exact Finset.mem_union_left _ (inv.hdone v hv hnot' i hadjvi)
    · have hvn : v ∈ new := List.mem_toFinset.1 hv
      have hvq : (v, p ++ [v]) ∈ rest ++ new.map fun i => (i, p ++ [i]) :=
        List.mem_append_right _ (List.mem_map.2 ⟨v, hvn, rfl⟩)
      exact absurd rfl (hnot (v, p ++ [v]) hvq)
  · intro cp hcp q hq
    rcases List.mem_append.1 hcp with hl | hr
    · exact inv.hmin cp (List.mem_cons_of_mem _ hl) q hq
    · obtain ⟨i, hi, rfl⟩ := List.mem_map.1 hr
      have hkey := key q.length q i ((hmemnew i).1 hi).2.1 hq (le_refl _)
      simp only [List.length_append, List.length_cons, List.length_nil]
      omega
  · intro hev
    rcases Finset.mem_union.1 hev with hev | hev
    · obtain ⟨cp, hcpmem, hcpe⟩ := inv.hend hev
      rcases List.mem_cons.1 hcpmem with rfl | hmem
      · exact absurd hcpe hne
      · exact ⟨cp, List.mem_append_left _ hmem, hcpe⟩
    · have hvn : endN ∈ new := List.mem_toFinset.1 hev
      exact ⟨(endN, p ++ [endN]),
        List.mem_append_right _ (List.mem_map.2 ⟨endN, hvn, rfl⟩), rfl⟩

lemma bfs_card_step {n c : Nat} {visited : Finset Nat} {domain : List Nat}
    {adj : Nat → Nat → Bool}
    (hdom : ∀ i ∈ domain, i < n) (hnd : domain.Nodup) :
    (Finset.range n \
        (visited ∪ (domain.filter fun i => decide (i ∉ visited) && adj c i).toFinset)).card
      + (domain.filter fun i => decide (i ∉ visited) && adj c i).length
      = (Finset.range n \ visited).card := by
  set new := domain.filter fun i => decide (i ∉ visited) && adj c i with hnew
  have hmemnew : ∀ i, i ∈ new → i ∈ domain ∧ i ∉ visited ∧ adj c i = true := by
    intro i hi
    rw [hnew, List.mem_filter] at hi
    simpa [Bool.and_eq_true, decide_eq_true_eq, and_assoc] using hi
  have hsub : new.toFinset ⊆ Finset.range n \ visited := by
    intro i hi
    have h1 := hmemnew i (List.mem_toFinset.1 hi)
    exact Finset.mem_sdiff.2 ⟨Finset.mem_range.2 (hdom i h1.1), h1.2.1⟩
  have hsd : Finset.range n \ (visited ∪ new.toFinset)
      = (Finset.range n \ visited) \ new.toFinset := by
    ext x
    simp only [Finset.mem_sdiff, Finset.mem_union]
    tauto
  have hcard : ((Finset.range n \ visited) \ new.toFinset).card
      = (Finset.range n \ visited).card - new.toFinset.card :=
    Finset.card_sdiff hsub
  have hlen : new.toFinset.card = new.length :=
    List.toFinset_card_of_nodup (hnd.filter _)
  have hle : new.toFinset.card ≤ (Finset.range n \ visited).card :=
    Finset.card_le_card hsub
  rw [hsd, hcard, hlen] at *
  omega

/-- Full specification of the BFS loop: under the invariant and with enough
fuel, an empty result means the target is unreachable, and a non-empty
result is a path from `s` to `endN` of minimal length. -/
lemma bfsAux_spec (n s endN : Nat) (domain : List Nat) (adj : Nat → Nat → Bool)
    (hdom : ∀ i ∈ domain, i < n) (hnd : domain.Nodup)
    (hcomp : ∀ c i, c < n → adj c i = true → i ∈ domain) :
    ∀ (fuel : Nat) (queue : List (Nat × List Nat)) (visited : Finset Nat),
      BfsInv n s endN adj queue visited →
      queue.length + (Finset.range n \ visited).card ≤ fuel →
      (bfsAux endN domain adj fuel queue visited = [] →
        ¬ Reachable adj s endN) ∧
      (bfsAux endN domain adj fuel queue visited ≠ [] →
        IsPathList adj s endN (bfsAux endN domain adj fuel queue visited) ∧
        ∀ q, IsPathList adj s endN q →
          (bfsAux endN domain adj fuel queue visited).length ≤ q.length) := by
  intro fuel
  induction fuel with
  | zero =>
    intro queue visited inv hbound
    have hq : queue = [] := List.length_eq_zero.1 (by omega)
    subst hq
    refine ⟨?_, fun hneq => absurd rfl hneq⟩
    rintro _ ⟨q, hpath⟩
    have hclosed : ∀ v ∈ visited, ∀ i, adj v i = true → i ∈ visited :=
      fun v hv i hadj => inv.hdone v hv (by simp) i hadj
    have hmem : endN ∈ visited :=
      visited_closed inv.hstart hclosed q.length q endN hpath (le_refl _)
    obtain ⟨cp, hcp, _⟩ := inv.hend hmem
    simp at hcp
  | succ fuel ih =>
    intro queue visited inv hbound
    rcases queue with _ | ⟨⟨c, p⟩, rest⟩
    · refine ⟨?_, fun hneq => absurd rfl hneq⟩
      rintro _ ⟨q, hpath⟩
      have hclosed : ∀ v ∈ visited, ∀ i, adj v i = true → i ∈ visited :=
        fun v hv i hadj => inv.hdone v hv (by simp) i hadj
      have hmem : endN ∈ visited :=
        visited_closed inv.hstart hclosed q.length q endN hpath (le_refl _)
      obtain ⟨cp, hcp, _⟩ := inv.hend hmem
      simp at hcp
    · by_cases hce : c = endN
      · have heq : bfsAux endN domain adj (fuel + 1) ((c, p) :: rest) visited = p := by
          simp [bfsAux, hce]
        rw [heq]
        have hpath : IsPathList adj s endN p := by
          have := inv.hq_path (c, p) (by simp)
          rwa [hce] at this
        refine ⟨fun hp => absurd hp hpath.1, fun _ => ⟨hpath, fun q hq => ?_⟩⟩
        exact inv.hmin (c, p) (by simp) q (by rw [hce]; exact hq)
      · have heq : bfsAux endN domain adj (fuel + 1) ((c, p) :: rest) visited =
            bfsAux endN domain adj fuel
              (rest ++ (domain.filter fun i => decide (i ∉ visited) && adj c i).map
                fun i => (i, p ++ [i]))
              (visited ∪ (domain.filter fun i => decide (i ∉ visited) && adj c i).toFinset) := by
          simp only [bfsAux, if_neg hce]
        have hstep := bfsInv_step hdom hnd hcomp inv hce
        have hcard := @bfs_card_step n c visited domain adj hdom hnd
        have hbound2 :
            (rest ++ (domain.filter fun i => decide (i ∉ visited) && adj c i).map
              fun i => (i, p ++ [i])).length +
            (Finset.range n \
              (visited ∪ (domain.filter fun i => decide (i ∉ visited) && adj c i).toFinset)).card
            ≤ fuel := by
          rw [List.length_append, List.length_map]
          simp only [List.length_cons] at hbound
          omega
        have := ih _ _ hstep hbound2
        rw [heq]
        exact this

/-- The initial BFS state: queue `[start_node]` paired with path list
`[[start_node]]`, and `visited[start_node] = True`. -/
lemma bfsInv_init (n s endN : Nat) (adj : Nat → Nat → Bool) (hs : s < n) :
    BfsInv n s endN adj [(s, [s])] {s} := by
  constructor
  · exact Finset.mem_singleton_self s
  · intro cp hcp
    rcases List.mem_singleton.1 hcp with rfl
    exact isPathList_singleton adj s
  · intro cp hcp
    rcases List.mem_singleton.1 hcp with rfl
    exact Finset.mem_singleton_self s
  · intro cp hcp
    rcases List.mem_singleton.1 hcp with rfl
    exact hs
  · exact List.pairwise_singleton _ _
  · intro v hv hnot i _
    rcases Finset.mem_singleton.1 hv with rfl
    exact absurd rfl (hnot (v, [v]) (by simp))
  · intro cp hcp q hq
    rcases List.mem_singleton.1 hcp with rfl
    have := hq.length_pos
    simpa using this
  · intro hev
    rcases Finset.mem_singleton.1 hev with rfl
    exact ⟨(endN, [endN]), by simp⟩

lemma bfs_init_bound (n s : Nat) :
    ([(s, [s])] : List (Nat × List Nat)).length +
      (Finset.range n \ {s}).card ≤ n + 1 := by
  have h1 : (Finset.range n \ {s}).card ≤ (Finset.range n).card :=
    Finset.card_le_card (Finset.sdiff_subset)
  rw [Finset.card_range] at h1
  simp only [List.length_singleton]
  omega

/-- Translation of `Maze.find_shortest_path`.  Both source variants run the
same BFS: the dense one iterates `for i in range(n): if not visited[i] and
incident_matrix[current, i]`, the sparse one iterates the stored column
indices of the current row, which for the matrices it is applied to are
exactly the `i < n` with a set entry, in the same increasing order. -/
def find_shortest_path (n : Nat) (adj : Nat → Nat → Bool) (startN endN : Nat) :
    List Nat :=
  bfsAux endN (List.range n) adj (n + 1) [(startN, [startN])] {startN}

lemma find_shortest_path_spec (n s endN : Nat) (adj : Nat → Nat → Bool)
    (hadj : ∀ u v, adj u v = true → u < n ∧ v < n) (hs : s < n) :
    (find_shortest_path n adj s endN = [] → ¬ Reachable adj s endN) ∧
    (find_shortest_path n adj s endN ≠ [] →
      IsPathList adj s endN (find_shortest_path n adj s endN) ∧
      ∀ q, IsPathList adj s endN q →
        (find_shortest_path n adj s endN).length ≤ q.length) :=
  bfsAux_spec n s endN (List.range n) adj
    (fun i hi => List.mem_range.1 hi) (List.nodup_range n)
    (fun c i _ hci => List.mem_range.2 (hadj c i hci).2)
    (n + 1) [(s, [s])] {s} (bfsInv_init n s endN adj hs) (bfs_init_bound n s)

/-- List `non_zero` of the dense `Maze.shortest_check`: the row indices of
the matrix having at least one set entry. -/
def nonZeroList (n : Nat) (adj : Nat → Nat → Bool) : List Nat :=
  (List.range n).filter fun i => (List.range n).any fun j => adj i j

lemma bnot_isEmpty_eq_false {l : List Nat} (h : (!l.isEmpty) = false) : l = [] := by
  cases l <;> simp_all

lemma bnot_isEmpty_eq_true {l : List Nat} (h : (!l.isEmpty) = true) : l ≠ [] := by
  cases l <;> simp_all

namespace Code

/-- Dense `Maze.shortest_check` (src/code/maze.py): the same BFS as
`find_shortest_path`, except that the neighbour loop runs over the
precomputed list `non_zero` of row indices owning at least one set entry;
returns `(True, path)` when the target is dequeued and `(False, [])` when
the queue empties. -/
def shortest_check (n : Nat) (adj : Nat → Nat → Bool) (startN endN : Nat) :
    Bool × List Nat :=
  ((!(bfsAux endN (nonZeroList n adj) adj (n + 1) [(startN, [startN])] {startN}).isEmpty),
    bfsAux endN (nonZeroList n adj) adj (n + 1) [(startN, [startN])] {startN})

lemma shortest_check_spec (n s endN : Nat) (adj : Nat → Nat → Bool)
    (hadj : ∀ u v, adj u v = true → u < n ∧ v < n)
    (hsym : ∀ u v, adj u v = adj v u) (hs : s < n) :
    ((shortest_check n adj s endN).1 = false → ¬ Reachable adj s endN) ∧
    ((shortest_check n adj s endN).1 = true →
      IsPathList adj s endN (shortest_check n adj s endN).2 ∧
      ∀ q, IsPathList adj s endN q →
        (shortest_check n adj s endN).2.length ≤ q.length) := by
  have hspec := bfsAux_spec n s endN (nonZeroList n adj) adj
    (fun i hi => List.mem_range.1 (List.mem_of_mem_filter hi))
    ((List.nodup_range n).filter _)
    (fun c i hc hci => by
      refine List.mem_filter.2 ⟨List.mem_range.2 (hadj c i hci).2, ?_⟩
      refine List.any_eq_true.2 ⟨c, List.mem_range.2 hc, ?_⟩
      rw [hsym]
      exact hci)
    (n + 1) [(s, [s])] {s} (bfsInv_init n s endN adj hs) (bfs_init_bound n s)
  constructor
  · intro hfalse
    exact hspec.1 (bnot_isEmpty_eq_false hfalse)
  · intro htrue
    exact hspec.2 (bnot_isEmpty_eq_true htrue)

end Code

namespace MazeCode

/-- One step `possible = incident_matrix.dot(possible)` of the sparse
`Maze.shortest_check`: for a boolean matrix and vector,
`possible'[x] = OR over y of (M[x, y] AND possible[y])`. -/
def possStep (n : Nat) (adj : Nat → Nat → Bool) (poss : Nat → Bool) : Nat → Bool :=
  fun x => (List.range n).any fun y => adj x y && poss y

/-- Loop body of the sparse `Maze.shortest_check`: `k` remaining iterations,
the current `possible` vector; returns `True` as soon as `possible[end_node]`
is set after a multiplication, `False` when the iterations are exhausted. -/
def checkAux (n : Nat) (adj : Nat → Nat → Bool) (endN : Nat) :
    Nat → (Nat → Bool) → Bool
  | 0, _ => false
  | k + 1, poss =>
    if possStep n adj poss endN then true else checkAux n adj endN k (possStep n adj poss)

/-- Sparse `Maze.shortest_check` (src/maze_code/maze.py): BFS implemented by
matrix multiplication; `possible` starts as the indicator vector of
`start_node` and the multiplication loop runs `size - 1` times. -/
def shortest_check (n : Nat) (adj : Nat → Nat → Bool) (startN endN : Nat) : Bool :=
  checkAux n adj endN (n - 1) fun x => decide (x = startN)

/-- Walks in the orientation used by the multiplication: `RWalk n adj s k x`
holds when `x` is obtainable from `s` in exactly `k` steps, each step moving
from `z` to `x'` with `M[x', z]` set and `z < n` (the multiplication sums
over the column index `y < n`, while the row index is unconstrained). -/
def RWalk (n : Nat) (adj : Nat → Nat → Bool) (s : Nat) : Nat → Nat → Prop
  | 0, x => x = s
  | k + 1, x => ∃ z, z < n ∧ adj x z = true ∧ RWalk n adj s k z

lemma possStep_iterate (n : Nat) (adj : Nat → Nat → Bool) (s : Nat) :
    ∀ (k : Nat) (x : Nat),
      ((possStep n adj)^[k] fun z => decide (z = s)) x = true ↔ RWalk n adj s k x := by
  intro k
  induction k with
  | zero =>
    intro x
    simp [RWalk]
  | succ k ih =>
    intro x
    rw [Function.iterate_succ_apply']
    simp only [possStep, List.any_eq_true, List.mem_range, Bool.and_eq_true]
    constructor
    · rintro ⟨z, hz, hadj, hposs⟩
      exact ⟨z, hz, hadj, (ih z).1 hposs⟩
    · rintro ⟨z, hz, hadj, hwalk⟩
      exact ⟨z, hz, hadj, (ih z).2 hwalk⟩

lemma checkAux_true_iff (n : Nat) (adj : Nat → Nat → Bool) (endN : Nat) :
    ∀ (k : Nat) (poss : Nat → Bool),
      checkAux n adj endN k poss = true ↔
        ∃ j, 1 ≤ j ∧ j ≤ k ∧ ((possStep n adj)^[j] poss) endN = true := by
  intro k
  induction k with
  | zero =>
    intro poss
    simp only [checkAux]
    constructor
    · intro h; cases h
    · rintro ⟨j, hj1, hj0, _⟩; omega
  | succ k ih =>
    intro poss
    simp only [checkAux]
    by_cases hstep : possStep n adj poss endN = true
    · simp only [if_pos hstep, true_iff]
      exact ⟨1, le_refl _, by omega, by
        rw [Function.iterate_one]; exact hstep⟩
    · rw [if_neg hstep, ih]
      constructor
      · rintro ⟨j, hj1, hjk, hiter⟩
        refine ⟨j + 1, by omega, by omega, ?_⟩
        rwa [Function.iterate_succ_apply]
      · rintro ⟨j, hj1, hjk, hiter⟩
        rcases Nat.exists_eq_add_of_le hj1 with ⟨j', rfl⟩
        rw [Nat.add_comm 1 j', Function.iterate_succ_apply] at hiter
        refine ⟨j', ?_, by omega, hiter⟩
        by_contra hj0
        push_neg at hj0
        have : j' = 0 := by omega
        subst this
        rw [Function.iterate_zero_apply] at hiter
        exact hstep hiter

/-- Characterization of the sparse reachability check: it returns `True`
exactly when the target is hit by a walk of between `1` and `size - 1`
multiplication steps. -/
lemma shortest_check_true_iff (n : Nat) (adj : Nat → Nat → Bool) (s endN : Nat) :
    shortest_check n adj s endN = true ↔
      ∃ j, 1 ≤ j ∧ j ≤ n - 1 ∧ RWalk n adj s j endN := by
  rw [shortest_check, checkAux_true_iff]
  constructor
  · rintro ⟨j, hj1, hjk, hiter⟩
    exact ⟨j, hj1, hjk, (possStep_iterate n adj s j endN).1 hiter⟩
  · rintro ⟨j, hj1, hjk, hwalk⟩
    exact ⟨j, hj1, hjk, (possStep_iterate n adj s j endN).2 hwalk⟩

end MazeCode

/-- On a symmetric matrix, a multiplication walk yields a BFS path of the
same length. -/
lemma path_of_rwalk {n : Nat} {adj : Nat → Nat → Bool} {s : Nat}
    (hsym : ∀ u v, adj u v = adj v u) :
    ∀ (k : Nat) (x : Nat), MazeCode.RWalk n adj s k x →
      ∃ p, IsPathList adj s x p ∧ p.length = k + 1 := by
  intro k
  induction k with
  | zero =>
    intro x hx
    rw [MazeCode.RWalk] at hx
    refine ⟨[s], ?_, rfl⟩
    rw [hx]
    exact isPathList_singleton adj s
  | succ k ih =>
    intro x hx
    obtain ⟨z, _, hadjxz, hwalk⟩ := hx
    obtain ⟨p, hp, hlen⟩ := ih z hwalk
    refine ⟨p ++ [x], hp.snoc ?_, by simp [hlen]⟩
    rw [hsym]
    exact hadjxz

/-- On a symmetric matrix whose entries relate only in-range nodes, a BFS
path yields a multiplication walk of the same length. -/
lemma rwalk_of_path {n : Nat} {adj : Nat → Nat → Bool} {s : Nat}
    (hsym : ∀ u v, adj u v = adj v u)
    (hadj : ∀ u v, adj u v = true → u < n ∧ v < n) :
    ∀ (k : Nat) (p : List Nat) (x : Nat), p.length ≤ k →
      IsPathList adj s x p → MazeCode.RWalk n adj s (p.length - 1) x := by
  intro k
  induction k with
  | zero =>
    intro p x hlen hp
    have := hp.length_pos
    omega
  | succ k ih =>
    intro p x hlen hp
    by_cases h1 : p.length = 1
    · have hsx := hp.eq_of_length_one h1
      rw [h1, ← hsx]
      rw [MazeCode.RWalk]
    · have h2 : 2 ≤ p.length := by have := hp.length_pos; omega
      obtain ⟨q, u, _, hq, hadjux, hqlen⟩ := hp.decomp h2
      have hwalk := ih q u (by omega) hq
      have hstep : MazeCode.RWalk n adj s (q.length - 1 + 1) x := by
        rw [MazeCode.RWalk]
        refine ⟨u, (hadj u x hadjux).1, ?_, hwalk⟩
        rw [hsym]
        exact hadjux
      have hql : q.length - 1 + 1 = p.length - 1 := by
        have := hq.length_pos
        omega
      rwa [hql] at hstep

namespace Code

/-- State of the dense `generate_maze` loop: the grid `maze`, the matrix
`incident_matrix`, the tracked shortest path `path`, and the counter
`non_solvable`. -/
structure DState where
  grid : Nat → Nat → Bool
  mat : Nat → Nat → Bool
  path : List Nat
  ns : Nat

/-- Body of the dense `generate_maze` loop for candidate node `num`
(src/code/maze.py lines 62-79): wall the cell, save the matrix row, zero the
row and the column; when `num` lies on the tracked path re-run
`shortest_check` and either adopt the new path or roll everything back
(restoring both the row and the column from the saved row, and re-opening
the cell) and bump `non_solvable`; when `num` is off the path, commit
without any check. -/
def generate_step (w n : Nat) (s : DState) (num : Nat) : DState :=
  if num ∈ s.path then
    if (shortest_check n
        (fun x y => if x = num ∨ y = num then false else s.mat x y) 0 (n - 1)).1 then
      ⟨wallCell w num s.grid,
        fun x y => if x = num ∨ y = num then false else s.mat x y,
        (shortest_check n
          (fun x y => if x = num ∨ y = num then false else s.mat x y) 0 (n - 1)).2,
        s.ns⟩
    else
      ⟨openCell w num (wallCell w num s.grid),
        fun x y => if y = num then s.mat num x
          else if x = num then s.mat num y
          else if x = num ∨ y = num then false else s.mat x y,
        s.path, s.ns + 1⟩
  else
    ⟨wallCell w num s.grid,
      fun x y => if x = num ∨ y = num then false else s.mat x y,
      s.path, s.ns⟩

/-- The `while non_solvable < iter_num and i < width**2 - 1` loop of the
dense `generate_maze`, structurally recursing over the shuffled candidates
still to be visited. -/
def generate_loop (w n iterNum : Nat) : List Nat → DState → DState
  | [], s => s
  | num :: rest, s =>
    if s.ns < iterNum then generate_loop w n iterNum rest (generate_step w n s num)
    else s

/-- Candidate pool of the dense `generate_maze`:
`np.random.choice(range(1, width**2), width**2 - 1, replace=False)` draws
every element of `range(1, width**2)`, i.e. `1 .. width**2 - 1`, exactly
once in some order. -/
def candidatePool (w : Nat) : List Nat := List.range' 1 (w * w - 1)

/-- Default of `iter_num` in the dense signature: `iter_num: int = 10`. -/
def resolveIterNum (iterNum : Option Nat) : Nat := iterNum.getD 10

/-- Dense `Maze.generate_maze` on a square grid of side `w`; the result of
the random shuffle is abstracted as the list `order`. -/
def generate_maze (w : Nat) (g : Nat → Nat → Bool) (iterNum : Option Nat)
    (order : List Nat) : DState :=
  generate_loop w (w * w) (resolveIterNum iterNum) order
    ⟨g, incident w w g,
      (shortest_check (w * w) (incident w w g) 0 (w * w - 1)).2, 0⟩

end Code

/-- Every node of a path of length at least two has an incident edge. -/
lemma path_mem_edge {adj : Nat → Nat → Bool} {e v : Nat} :
    ∀ {p : List Nat} {s : Nat}, IsPathList adj s e p → v ∈ p → 2 ≤ p.length →
      ∃ u, adj v u = true ∨ adj u v = true := by
  intro p
  induction p with
  | nil => intro s h _ _; exact absurd rfl h.1
  | cons a t ih =>
    intro s h hv hlen
    rcases t with _ | ⟨b, t'⟩
    · simp at hlen
    · have hchain := h.2.2.2
      rw [List.chain'_cons] at hchain
      rcases List.mem_cons.1 hv with rfl | hv'
      · exact ⟨b, Or.inl hchain.1⟩
      · rcases t' with _ | ⟨c, t''⟩
        · have hb : v = b := by simpa using hv'
          subst hb
          exact ⟨a, Or.inr hchain.1⟩
        · have htail : IsPathList adj b e (b :: c :: t'') := by
            refine ⟨by simp, rfl, ?_, hchain.2⟩
            have := h.2.2.1
            rwa [List.getLast?_cons_cons] at this
          exact ih htail hv' (by simp)

namespace Code

/-- Invariant of the dense `generate_maze` loop: the matrix is exactly the
incidence matrix of the current grid, and the tracked path is either empty
(which happens only when the input was already disconnected) or a valid
entrance-to-exit path of the matrix. -/
def DInv (w : Nat) (s : DState) : Prop :=
  s.mat = incident w w s.grid ∧
  (s.path = [] ∨ IsPathList s.mat 0 (w * w - 1) s.path)

lemma generate_step_inv {w num : Nat} {s : DState}
    (hnum1 : 1 ≤ num) (hnum2 : num < w * w) (hinv : DInv w s) :
    DInv w (generate_step w (w * w) s num) ∧
    (IsPathList s.mat 0 (w * w - 1) s.path →
      IsPathList (generate_step w (w * w) s num).mat 0 (w * w - 1)
        (generate_step w (w * w) s num).path) := by
  obtain ⟨hsync, hpath⟩ := hinv
  have hsymM : ∀ a b, s.mat a b = s.mat b a := by
    intro a b
    rw [hsync]
    exact incident_symm w w s.grid a b
  have key1 : (fun x y => if x = num ∨ y = num then false else s.mat x y)
      = incident w w (wallCell w num s.grid) := by
    funext x y
    rw [incident_wallCell]
    by_cases hx : x = num
    · simp [hx]
    · by_cases hy : y = num
      · simp [hx, hy]
      · simp [hx, hy, hsync]
  have hadj1 : ∀ u v,
      (fun x y => if x = num ∨ y = num then false else s.mat x y) u v = true →
        u < w * w ∧ v < w * w := by
    intro u v huv
    rw [key1] at huv
    have := incident_bounds w w (wallCell w num s.grid) u v huv
    exact ⟨this.1, this.2.1⟩
  have hsym1 : ∀ u v,
      (fun x y => if x = num ∨ y = num then false else s.mat x y) u v =
      (fun x y => if x = num ∨ y = num then false else s.mat x y) v u := by
    intro u v
    rw [key1]
    exact incident_symm w w (wallCell w num s.grid) u v
  have hn0 : 0 < w * w := by omega
  by_cases hmem : num ∈ s.path
  · have hvalid : IsPathList s.mat 0 (w * w - 1) s.path := by
      rcases hpath with hnil | hval
      · rw [hnil] at hmem; simp at hmem
      · exact hval
    have hspec := shortest_check_spec (w * w) 0 (w * w - 1)
      (fun x y => if x = num ∨ y = num then false else s.mat x y) hadj1 hsym1 hn0
    cases hcor : (shortest_check (w * w)
        (fun x y => if x = num ∨ y = num then false else s.mat x y) 0 (w * w - 1)).1
    · have hstep : generate_step w (w * w) s num =
          ⟨openCell w num (wallCell w num s.grid),
            fun x y => if y = num then s.mat num x
              else if x = num then s.mat num y
              else if x = num ∨ y = num then false else s.mat x y,
            s.path, s.ns + 1⟩ := by
        rw [generate_step, if_pos hmem, if_neg (by rw [hcor]; simp)]
      have hlen2 : 2 ≤ s.path.length := by
        by_contra hlt
        push_neg at hlt
        have h1 : s.path.length = 1 := by
          have := hvalid.length_pos; omega
        obtain ⟨x, hx⟩ := List.length_eq_one.1 h1
        have hx0 : x = 0 := by
          have hh := hvalid.2.1
          rw [hx] at hh
          simpa using hh
        rw [hx, hx0] at hmem
        simp only [List.mem_singleton] at hmem
        omega
      obtain ⟨u, hedge⟩ := path_mem_edge hvalid hmem hlen2
      have hopen : s.grid (num / w) (num % w) = false := by
        rcases hedge with hl | hr
        · have := incident_bounds w w s.grid num u (by rw [← hsync]; exact hl)
          exact this.2.2.1
        · have := incident_bounds w w s.grid u num (by rw [← hsync]; exact hr)
          exact this.2.2.2
      have hgrid : openCell w num (wallCell w num s.grid) = s.grid := by
        funext r c
        unfold openCell wallCell
        by_cases hrc : r = num / w ∧ c = num % w
        · obtain ⟨rfl, rfl⟩ := hrc
          simp [hopen]
        · simp [hrc]
      have hmatrix : (fun x y => if y = num then s.mat num x
          else if x = num then s.mat num y
          else if x = num ∨ y = num then false else s.mat x y) = s.mat := by
        funext x y
        by_cases hy : y = num
        · rw [if_pos hy, hy]
          exact hsymM num x
        · by_cases hx : x = num
          · rw [if_neg hy, if_pos hx, hx]
          · simp [hx, hy]
      rw [hstep]
      constructor
      · constructor
        · simp only [hmatrix, hgrid]
          exact hsync
        · simp only [hmatrix]
          exact hpath
      · intro hv
        simp only [hmatrix]
        exact hv
    · have hstep : generate_step w (w * w) s num =
          ⟨wallCell w num s.grid,
            fun x y => if x = num ∨ y = num then false else s.mat x y,
            (shortest_check (w * w)
              (fun x y => if x = num ∨ y = num then false else s.mat x y)
              0 (w * w - 1)).2,
            s.ns⟩ := by
        rw [generate_step, if_pos hmem, if_pos hcor]
      have hnewpath := (hspec.2 hcor).1
      rw [hstep]
      exact ⟨⟨key1, Or.inr hnewpath⟩, fun _ => hnewpath⟩
  · have hstep : generate_step w (w * w) s num =
        ⟨wallCell w num s.grid,
          fun x y => if x = num ∨ y = num then false else s.mat x y,
          s.path, s.ns⟩ := by
      rw [generate_step, if_neg hmem]
    have htransfer : IsPathList s.mat 0 (w * w - 1) s.path →
        IsPathList (fun x y => if x = num ∨ y = num then false else s.mat x y)
          0 (w * w - 1) s.path := by
      intro hval
      refine hval.congr_adj ?_
      intro a ha b hb hab
      have hane : a ≠ num := fun hh => hmem (hh ▸ ha)
      have hbne : b ≠ num := fun hh => hmem (hh ▸ hb)
      simp only [hane, hbne, or_self, if_false]
      simpa [hane, hbne] using hab
    rw [hstep]
    constructor
    · refine ⟨key1, ?_⟩
      rcases hpath with hnil | hval
      · exact Or.inl hnil
      · exact Or.inr (htransfer hval)
    · intro hv
      exact htransfer hv

/-- Preservation of a state predicate along the carving loop. -/
lemma dense_loop_pres {w n iterNum : Nat} (P : DState → Prop) (cond : Nat → Prop)
    (hstep : ∀ s num, cond num → P s → P (generate_step w n s num)) :
    ∀ (order : List Nat) (s : DState), (∀ num ∈ order, cond num) → P s →
      P (generate_loop w n iterNum order s) := by
  intro order
  induction order with
  | nil => intro s _ hP; exact hP
  | cons num rest ih =>
    intro s hcond hP
    rw [generate_loop]
    by_cases hns : s.ns < iterNum
    · rw [if_pos hns]
      exact ih _ (fun m hm => hcond m (List.mem_cons_of_mem _ hm))
        (hstep s num (hcond num (List.mem_cons_self _ _)) hP)
    · rw [if_neg hns]
      exact hP

end Code

namespace MazeCode

/-- CSR boolean matrix of the sparse variant: `stored` is the sparsity
structure produced by `Maze.incident` (it never changes afterwards), `data`
the current values at the stored positions; an effective entry needs both.
`generate_maze` only ever touches `data` (`incident_matrix.data[indices]`),
so `data` outside the stored positions is irrelevant and modelled as a total
function. -/
structure SGraph where
  stored : Nat → Nat → Bool
  data : Nat → Nat → Bool

/-- Effective entry of the sparse matrix. -/
def SGraph.eff (G : SGraph) : Nat → Nat → Bool := fun x y => G.stored x y && G.data x y

/-- State of the sparse `generate_maze` loop. -/
structure SState where
  grid : Nat → Nat → Bool
  graph : SGraph
  ns : Nat

/-- Body of the sparse `generate_maze` loop for candidate node `num`
(src/maze_code/maze.py lines 74-85): wall the cell, zero the stored entries
whose column index is `num` (`indices = np.where(incident_matrix.indices ==
num)`; `incident_matrix.data[indices] = 0` — note that only the column is
zeroed, the row of `num` keeps its values), run `shortest_check` on the
result; on failure restore those entries to one, re-open the cell and bump
`non_solvable`, otherwise keep everything. -/
def generate_step (w n : Nat) (s : SState) (num : Nat) : SState :=
  if shortest_check n
      (SGraph.eff ⟨s.graph.stored, fun x y => if y = num then false else s.graph.data x y⟩)
      0 (n - 1) then
    ⟨wallCell w num s.grid,
      ⟨s.graph.stored, fun x y => if y = num then false else s.graph.data x y⟩,
      s.ns⟩
  else
    ⟨openCell w num (wallCell w num s.grid),
      ⟨s.graph.stored, fun x y => if y = num then true
        else if y = num then false else s.graph.data x y⟩,
      s.ns + 1⟩

/-- The `while non_solvable < iter_num and i < numbers.size` loop of the
sparse `generate_maze`. -/
def generate_loop (w n iterNum : Nat) : List Nat → SState → SState
  | [], s => s
  | num :: rest, s =>
    if s.ns < iterNum then generate_loop w n iterNum rest (generate_step w n s num)
    else s

/-- Candidate pool of the sparse `generate_maze`:
`np.random.choice(range(1, width**2 - 1), width**2 - 2, replace=False)`
draws every element of `1 .. width**2 - 2` exactly once in some order. -/
def candidatePool (w : Nat) : List Nat := List.range' 1 (w * w - 2)

/-- Default of `iter_num` in the sparse variant: `if iter_num is None:
iter_num = maze.shape[0]`, the linear dimension of the grid. -/
def resolveIterNum (iterNum : Option Nat) (h : Nat) : Nat := iterNum.getD h

/-- Sparse `Maze.generate_maze` on a square grid of side `w`; the result of
the random shuffle is abstracted as the list `order`.  The CSR matrix built
by `incident` stores exactly the set entries, all with value one. -/
def generate_maze (w : Nat) (g : Nat → Nat → Bool) (iterNum : Option Nat)
    (order : List Nat) : SState :=
  generate_loop w (w * w) (resolveIterNum iterNum w) order
    ⟨g, ⟨incident w w g, fun _ _ => true⟩, 0⟩

/-- Weak synchronisation invariant of the sparse loop: the sparsity
structure is the incidence matrix of the template, and an effective entry
`(x, y)` is set iff it is stored and the cell of the column index `y` is
currently open.  (The row index `x` is unconstrained: committed walls leave
their outgoing row entries in place.) -/
def SSync (w : Nat) (tmpl : Nat → Nat → Bool) (s : SState) : Prop :=
  (∀ x y, s.graph.stored x y = incident w w tmpl x y) ∧
  (∀ x y, s.graph.eff x y =
    (incident w w tmpl x y && !(s.grid (y / w) (y % w))))

/-- Full invariant of the sparse loop: synchronisation, open cells only
where the template is open, and entrance-to-exit reachability of the
current grid. -/
def SInv (w : Nat) (tmpl : Nat → Nat → Bool) (s : SState) : Prop :=
  SSync w tmpl s ∧
  (∀ r c, s.grid r c = false → tmpl r c = false) ∧
  Reachable (incident w w s.grid) 0 (w * w - 1)

lemma cell_eq_of_node_parts {y num w : Nat}
    (hdiv : y / w = num / w) (hmod : y % w = num % w) : y = num := by
  have h1 := Nat.div_add_mod y w
  have h2 := Nat.div_add_mod num w
  rw [hdiv, hmod] at h1
  omega

lemma eff_disable_sync {w num : Nat} {tmpl : Nat → Nat → Bool} {s : SState}
    (hsync : SSync w tmpl s) :
    ∀ x y, SGraph.eff ⟨s.graph.stored,
        fun x y => if y = num then false else s.graph.data x y⟩ x y =
      (incident w w tmpl x y && !(wallCell w num s.grid (y / w) (y % w))) := by
  intro x y
  by_cases hy : y = num
  · subst hy
    have hwc : wallCell w y s.grid (y / w) (y % w) = true := by
      unfold wallCell
      rw [if_pos ⟨rfl, rfl⟩]
    rw [hwc]
    simp [SGraph.eff]
  · have hwc : wallCell w num s.grid (y / w) (y % w) = s.grid (y / w) (y % w) := by
      unfold wallCell
      rw [if_neg]
      rintro ⟨hdiv, hmod⟩
      exact hy (cell_eq_of_node_parts hdiv hmod)
    rw [hwc]
    have := hsync.2 x y
    rw [SGraph.eff] at this ⊢
    simp only [if_neg hy]
    exact this

lemma sync_step {w n num : Nat} {tmpl : Nat → Nat → Bool} {s : SState}
    (hsync : SSync w tmpl s) : SSync w tmpl (generate_step w n s num) := by
  rw [generate_step]
  by_cases hcheck : shortest_check n
      (SGraph.eff ⟨s.graph.stored,
        fun x y => if y = num then false else s.graph.data x y⟩) 0 (n - 1) = true
  · rw [if_pos hcheck]
    exact ⟨hsync.1, eff_disable_sync hsync⟩
  · rw [if_neg hcheck]
    refine ⟨fun x y => hsync.1 x y, ?_⟩
    intro x y
    show SGraph.eff ⟨s.graph.stored, fun x y => if y = num then true
        else if y = num then false else s.graph.data x y⟩ x y
      = (incident w w tmpl x y &&
        !(openCell w num (wallCell w num s.grid) (y / w) (y % w)))
    by_cases hy : y = num
    · have hoc : openCell w num (wallCell w num s.grid) (y / w) (y % w) = false := by
        unfold openCell
        rw [hy, if_pos ⟨rfl, rfl⟩]
      rw [hoc, SGraph.eff]
      simp only [if_pos hy]
      simp [hsync.1 x y]
    · have hne : ¬ (y / w = num / w ∧ y % w = num % w) := by
        rintro ⟨hdiv, hmod⟩
        exact hy (cell_eq_of_node_parts hdiv hmod)
      have hoc : openCell w num (wallCell w num s.grid) (y / w) (y % w)
          = s.grid (y / w) (y % w) := by
        unfold openCell wallCell
        rw [if_neg hne, if_neg hne]
      rw [hoc]
      have hold := hsync.2 x y
      rw [SGraph.eff] at hold ⊢
      simp only [if_neg hy]
      exact hold

end MazeCode

/-- The entrance and exit cells of a grid whose exit is reachable from its
entrance are open (every edge endpoint is an open cell). -/
lemma reachable_ends_open {h w e : Nat} {g : Nat → Nat → Bool}
    (hne : (0 : Nat) ≠ e) (hr : Reachable (incident h w g) 0 e) :
    g (0 / w) (0 % w) = false ∧ g (e / w) (e % w) = false := by
  obtain ⟨p, hp⟩ := hr
  have hlen2 : 2 ≤ p.length := by
    by_contra hlt
    push_neg at hlt
    have h1 : p.length = 1 := by have := hp.length_pos; omega
    exact hne (hp.eq_of_length_one h1)
  constructor
  · rcases p with _ | ⟨a, t⟩
    · exact absurd rfl hp.1
    · rcases t with _ | ⟨b, t'⟩
      · simp at hlen2
      · have ha : a = 0 := hp.head_eq
        have hchain := hp.2.2.2
        rw [List.chain'_cons] at hchain
        have hedge : incident h w g 0 b = true := by rw [← ha]; exact hchain.1
        exact (incident_bounds h w g 0 b hedge).2.2.1
  · obtain ⟨q, u, _, _, hedge, _⟩ := hp.decomp hlen2
    exact (incident_bounds h w g u e hedge).2.2.2

namespace MazeCode

/-- A multiplication walk on an effective matrix synchronised with grid `g`
reaches only nodes with a real path in `g`, provided the final cell is
open. -/
lemma path_of_rwalk_eff {w n : Nat} {tmpl g : Nat → Nat → Bool}
    {eff : Nat → Nat → Bool}
    (heff : ∀ x y, eff x y = (incident w w tmpl x y && !(g (y / w) (y % w)))) :
    ∀ (k x : Nat), RWalk n eff 0 k x → g (x / w) (x % w) = false →
      Reachable (incident w w g) 0 x := by
  intro k
  induction k with
  | zero =>
    intro x hx _
    rw [RWalk] at hx
    refine ⟨[0], ?_⟩
    rw [hx]
    exact isPathList_singleton _ 0
  | succ k ih =>
    intro x hx hopen
    obtain ⟨z, _, hadjxz, hwalk⟩ := hx
    have heq := heff x z
    rw [hadjxz] at heq
    have h1 : incident w w tmpl x z = true ∧ g (z / w) (z % w) = false := by
      have heq2 : (incident w w tmpl x z && !g (z / w) (z % w)) = true := heq.symm
      rw [Bool.and_eq_true] at heq2
      refine ⟨heq2.1, ?_⟩
      have hb := heq2.2
      cases hgz : g (z / w) (z % w)
      · rfl
      · rw [hgz] at hb
        cases hb
    obtain ⟨p, hp⟩ := ih z hwalk h1.2
    have hedge : incident w w g z x = true := by
      refine incident_of_incident_open w w tmpl g z x ?_ h1.2 hopen
      rw [incident_symm]
      exact h1.1
    exact ⟨p ++ [x], hp.snoc hedge⟩

/-- A real path of the grid `g` yields a multiplication walk of the same
length on any effective matrix synchronised with `g`, provided the open
cells of `g` are open in the template. -/
lemma rwalk_of_path_eff {w n : Nat} {tmpl g : Nat → Nat → Bool}
    {eff : Nat → Nat → Bool}
    (heff : ∀ x y, eff x y = (incident w w tmpl x y && !(g (y / w) (y % w))))
    (hsub : ∀ r c, g r c = false → tmpl r c = false)
    (hn : n = w * w) :
    ∀ (k : Nat) (p : List Nat) (x : Nat), p.length ≤ k →
      IsPathList (incident w w g) 0 x p → RWalk n eff 0 (p.length - 1) x := by
  intro k
  induction k with
  | zero =>
    intro p x hlen hp
    have := hp.length_pos
    omega
  | succ k ih =>
    intro p x hlen hp
    by_cases h1 : p.length = 1
    · have hsx := hp.eq_of_length_one h1
      rw [h1, ← hsx]
      rw [RWalk]
    · have h2 : 2 ≤ p.length := by have := hp.length_pos; omega
      obtain ⟨q, u, _, hq, hedge, hqlen⟩ := hp.decomp h2
      have hwalk := ih q u (by omega) hq
      have hbounds := incident_bounds w w g u x hedge
      have heffxu : eff x u = true := by
        rw [heff]
        have htmpl : incident w w tmpl x u = true := by
          rw [incident_symm]
          exact incident_mono w w g tmpl hsub u x hedge
        rw [htmpl, hbounds.2.2.1]
        rfl
      have hstep : RWalk n eff 0 (q.length - 1 + 1) x := by
        rw [RWalk]
        exact ⟨u, by omega, heffxu, hwalk⟩
      have hql : q.length - 1 + 1 = p.length - 1 := by
        have := hq.length_pos
        omega
      rwa [hql] at hstep

/-- One sparse carving step preserves the full invariant. -/
lemma generate_step_sinv {w num : Nat} {tmpl : Nat → Nat → Bool} {s : SState}
    (hw : 2 ≤ w) (hnum1 : 1 ≤ num) (hnum2 : num ≤ w * w - 2)
    (hinv : SInv w tmpl s) : SInv w tmpl (generate_step w (w * w) s num) := by
  obtain ⟨hsync, hsub, hreach⟩ := hinv
  have hn4 : 4 ≤ w * w := by nlinarith
  have hne0 : (0 : Nat) ≠ w * w - 1 := by omega
  have hnumne : num ≠ w * w - 1 := by omega
  have hends := @reachable_ends_open w w (w * w - 1) s.grid hne0 hreach
  have hsync1 := @eff_disable_sync w num tmpl s hsync
  have hwallsub : ∀ r c, wallCell w num s.grid r c = false → s.grid r c = false := by
    intro r c hrc
    unfold wallCell at hrc
    by_cases hcell : r = num / w ∧ c = num % w
    · rw [if_pos hcell] at hrc; cases hrc
    · rwa [if_neg hcell] at hrc
  by_cases hcell : s.grid (num / w) (num % w) = false
  · -- candidate cell is open
    by_cases hcheck : shortest_check (w * w)
        (SGraph.eff ⟨s.graph.stored,
          fun x y => if y = num then false else s.graph.data x y⟩) 0 (w * w - 1) = true
    · -- the maze stays solvable: commit
      rw [generate_step, if_pos hcheck]
      refine ⟨⟨hsync.1, hsync1⟩, ?_, ?_⟩
      · intro r c hrc
        exact hsub r c (hwallsub r c hrc)
      · obtain ⟨j, _, _, hrw⟩ := (shortest_check_true_iff (w * w) _ 0 (w * w - 1)).1 hcheck
        have hendopen : wallCell w num s.grid ((w * w - 1) / w) ((w * w - 1) % w)
            = false := by
          unfold wallCell
          rw [if_neg]
          · exact hends.2
          · rintro ⟨hdiv, hmod⟩
            exact hnumne (cell_eq_of_node_parts hdiv hmod).symm
        exact path_of_rwalk_eff hsync1 j (w * w - 1) hrw hendopen
    · -- rollback: the state returns to the previous grid
      rw [generate_step, if_neg hcheck]
      have hgrid2 : openCell w num (wallCell w num s.grid) = s.grid := by
        funext r c
        unfold openCell wallCell
        by_cases hrc : r = num / w ∧ c = num % w
        · obtain ⟨rfl, rfl⟩ := hrc
          simp [hcell]
        · simp [hrc]
      have hsync2 : SSync w tmpl
          ⟨openCell w num (wallCell w num s.grid),
            ⟨s.graph.stored, fun x y => if y = num then true
              else if y = num then false else s.graph.data x y⟩, s.ns + 1⟩ := by
        have := @sync_step w (w * w) num tmpl s hsync
        rw [generate_step, if_neg hcheck] at this
        exact this
      refine ⟨hsync2, ?_, ?_⟩
      · intro r c hrc
        have : s.grid r c = false := by
          rw [← hgrid2]
          exact hrc
        exact hsub r c this
      · show Reachable (incident w w (openCell w num (wallCell w num s.grid)))
          0 (w * w - 1)
        rw [hgrid2]
        exact hreach
  · -- candidate cell is already a wall: the step is a no-op commit
    have hgrid1 : wallCell w num s.grid = s.grid := by
      funext r c
      unfold wallCell
      by_cases hrc : r = num / w ∧ c = num % w
      · obtain ⟨rfl, rfl⟩ := hrc
        rw [if_pos (And.intro rfl rfl)]
        cases hgc : s.grid (num / w) (num % w)
        · exact absurd hgc hcell
        · rfl
      · rw [if_neg hrc]
    have hsync1' : ∀ x y, SGraph.eff ⟨s.graph.stored,
        fun x y => if y = num then false else s.graph.data x y⟩ x y =
        (incident w w tmpl x y && !(s.grid (y / w) (y % w))) := by
      intro x y
      rw [hsync1 x y, hgrid1]
    have hcheck : shortest_check (w * w)
        (SGraph.eff ⟨s.graph.stored,
          fun x y => if y = num then false else s.graph.data x y⟩) 0 (w * w - 1)
        = true := by
      rw [shortest_check_true_iff]
      obtain ⟨p, hp⟩ := hreach
      obtain ⟨q, hq, hqle, hqnd⟩ := path_shorten p hp
      have hqlt : ∀ v ∈ q, v < w * w := by
        refine hq.nodes_lt (fun u v huv => ?_) (by omega)
        have := incident_bounds w w s.grid u v huv
        exact ⟨this.1, this.2.1⟩
      have hqlen : q.length ≤ w * w := nodup_length_le q (w * w) hqnd hqlt
      have hqlen2 : 2 ≤ q.length := by
        by_contra hlt
        push_neg at hlt
        have h1 : q.length = 1 := by have := hq.length_pos; omega
        exact hne0 (hq.eq_of_length_one h1)
      refine ⟨q.length - 1, by omega, by omega, ?_⟩
      exact rwalk_of_path_eff hsync1' hsub rfl q.length q (w * w - 1)
        (le_refl _) hq
    rw [generate_step, if_pos hcheck]
    refine ⟨⟨hsync.1, hsync1⟩, ?_, ?_⟩
    · intro r c hrc
      exact hsub r c (hwallsub r c hrc)
    · show Reachable (incident w w (wallCell w num s.grid)) 0 (w * w - 1)
      rw [hgrid1]
      exact hreach

/-- Preservation of a state predicate along the sparse carving loop. -/
lemma sparse_loop_pres {w n iterNum : Nat} (P : SState → Prop) (cond : Nat → Prop)
    (hstep : ∀ s num, cond num → P s → P (generate_step w n s num)) :
    ∀ (order : List Nat) (s : SState), (∀ num ∈ order, cond num) → P s →
      P (generate_loop w n iterNum order s) := by
  intro order
  induction order with
  | nil => intro s _ hP; exact hP
  | cons num rest ih =>
    intro s hcond hP
    rw [generate_loop]
    by_cases hns : s.ns < iterNum
    · rw [if_pos hns]
      exact ih _ (fun m hm => hcond m (List.mem_cons_of_mem _ hm))
        (hstep s num (hcond num (List.mem_cons_self _ _)) hP)
    · rw [if_neg hns]
      exact hP

end MazeCode

namespace Code

/-- Zeroing the row and the column of `num`:
`incident_matrix[num, :] = 0; incident_matrix[:, num] = 0`.  This is the
matrix operation performed by the dense `generate_maze` before the check;
`generate_step` contains it literally. -/
def disable_node (num : Nat) (M : Nat → Nat → Bool) : Nat → Nat → Bool :=
  fun x y => if x = num ∨ y = num then false else M x y

/-- The retained entries: `incident_matrix_copy = incident_matrix[num, :].copy()`. -/
def row_copy (num : Nat) (M : Nat → Nat → Bool) : Nat → Bool := fun y => M num y

/-- The rollback: `incident_matrix[num, :] = incident_matrix_copy;
incident_matrix[:, num] = incident_matrix_copy` — both the row and the
column are restored from the saved row. -/
def restore_node (num : Nat) (copy : Nat → Bool) (M : Nat → Nat → Bool) :
    Nat → Nat → Bool :=
  fun x y => if y = num then copy x else if x = num then copy y else M x y

/-- The matrix operations inside `generate_step` are exactly
`disable_node` and `restore_node` applied to it. -/
lemma dense_generate_step_ops (w n : Nat) (s : DState) (num : Nat) :
    generate_step w n s num =
      (if num ∈ s.path then
        if (shortest_check n (disable_node num s.mat) 0 (n - 1)).1 then
          ⟨wallCell w num s.grid, disable_node num s.mat,
            (shortest_check n (disable_node num s.mat) 0 (n - 1)).2, s.ns⟩
        else
          ⟨openCell w num (wallCell w num s.grid),
            restore_node num (row_copy num s.mat) (disable_node num s.mat),
            s.path, s.ns + 1⟩
      else
        ⟨wallCell w num s.grid, disable_node num s.mat, s.path, s.ns⟩) := rfl

/-- Fuel-indexed form of the dense carving loop, one unit of fuel per guard
test; `none` means the fuel ran out while the loop guard still held. -/
def generate_loop_fuel (w n iterNum : Nat) :
    Nat → List Nat → DState → Option DState
  | 0, _, _ => none
  | _ + 1, [], s => some s
  | fuel + 1, num :: rest, s =>
    if s.ns < iterNum then
      generate_loop_fuel w n iterNum fuel rest (generate_step w n s num)
    else some s

lemma dense_loop_fuel_of_length (w n iterNum : Nat) :
    ∀ (order : List Nat) (s : DState),
      generate_loop_fuel w n iterNum (order.length + 1) order s
        = some (generate_loop w n iterNum order s) := by
  intro order
  induction order with
  | nil => intro s; rfl
  | cons num rest ih =>
    intro s
    rw [generate_loop_fuel, generate_loop]
    by_cases hns : s.ns < iterNum
    · rw [if_pos hns, if_pos hns]
      exact ih (generate_step w n s num)
    · rw [if_neg hns, if_neg hns]

/-- State of the dense `generate_maze` after the first `k` candidates have
been considered (the whole run is the case `k = order.length`). -/
def generate_maze_partial (w : Nat) (g : Nat → Nat → Bool) (iterNum : Option Nat)
    (order : List Nat) (k : Nat) : DState :=
  generate_loop w (w * w) (resolveIterNum iterNum) (order.take k)
    ⟨g, incident w w g,
      (shortest_check (w * w) (incident w w g) 0 (w * w - 1)).2, 0⟩

lemma dense_generate_maze_eq_partial (w : Nat) (g : Nat → Nat → Bool)
    (iterNum : Option Nat) (order : List Nat) :
    generate_maze w g iterNum order
      = generate_maze_partial w g iterNum order order.length := by
  rw [generate_maze, generate_maze_partial, List.take_length]

end Code

namespace MazeCode

/-- Zeroing the stored entries of column `num`:
`indices = np.where(incident_matrix.indices == num);
incident_matrix.data[indices] = 0`.  The row of `num` is untouched. -/
def disable_node (num : Nat) (G : SGraph) : SGraph :=
  ⟨G.stored, fun x y => if y = num then false else G.data x y⟩

/-- The rollback: `incident_matrix.data[indices] = 1` with the same
`indices`. -/
def restore_node (num : Nat) (G : SGraph) : SGraph :=
  ⟨G.stored, fun x y => if y = num then true else G.data x y⟩

/-- The graph operations inside the sparse `generate_step` are exactly
`disable_node` and `restore_node` applied to it. -/
lemma sparse_generate_step_ops (w n : Nat) (s : SState) (num : Nat) :
    generate_step w n s num =
      (if shortest_check n (disable_node num s.graph).eff 0 (n - 1) then
        ⟨wallCell w num s.grid, disable_node num s.graph, s.ns⟩
      else
        ⟨openCell w num (wallCell w num s.grid),
          restore_node num (disable_node num s.graph), s.ns + 1⟩) := rfl

/-- Fuel-indexed form of the sparse carving loop. -/
def generate_loop_fuel (w n iterNum : Nat) :
    Nat → List Nat → SState → Option SState
  | 0, _, _ => none
  | _ + 1, [], s => some s
  | fuel + 1, num :: rest, s =>
    if s.ns < iterNum then
      generate_loop_fuel w n iterNum fuel rest (generate_step w n s num)
    else some s

lemma sparse_loop_fuel_of_length (w n iterNum : Nat) :
    ∀ (order : List Nat) (s : SState),
      generate_loop_fuel w n iterNum (order.length + 1) order s
        = some (generate_loop w n iterNum order s) := by
  intro order
  induction order with
  | nil => intro s; rfl
  | cons num rest ih =>
    intro s
    rw [generate_loop_fuel, generate_loop]
    by_cases hns : s.ns < iterNum
    · rw [if_pos hns, if_pos hns]
      exact ih (generate_step w n s num)
    · rw [if_neg hns, if_neg hns]

/-- State of the sparse `generate_maze` after the first `k` candidates. -/
def generate_maze_partial (w : Nat) (g : Nat → Nat → Bool) (iterNum : Option Nat)
    (order : List Nat) (k : Nat) : SState :=
  generate_loop w (w * w) (resolveIterNum iterNum w) (order.take k)
    ⟨g, ⟨incident w w g, fun _ _ => true⟩, 0⟩

lemma sparse_generate_maze_eq_partial (w : Nat) (g : Nat → Nat → Bool)
    (iterNum : Option Nat) (order : List Nat) :
    generate_maze w g iterNum order
      = generate_maze_partial w g iterNum order order.length := by
  rw [generate_maze, generate_maze_partial, List.take_length]

end MazeCode

/-- The disconnected 2x2 grid used as a concrete counterexample input: the
cells `(0, 1)` and `(1, 0)` are walls, so the open entrance `(0, 0)` and the
open exit `(1, 1)` are isolated from each other. -/
def discGrid : Nat → Nat → Bool :=
  fun r c => decide ((r = 0 ∧ c = 1) ∨ (r = 1 ∧ c = 0))

/-- An asymmetric boolean matrix with the single set entry `(1, 0)`; no
`incident` matrix, but a well-typed input of the matrix operations. -/
def asymM : Nat → Nat → Bool := fun x y => decide (x = 1 ∧ y = 0)

/-- C3: the claim says the candidate set excludes both the entrance node
`0` and the exit node `height*width - 1` and consists only of open-cell
node ids.  Evaluation of the code: in the dense variant the pool
`range(1, width**2)` does contain the exit node `width**2 - 1` (shown here
at `width = 2`, where the pool is `[1, 2, 3]` and the exit is node `3`);
the pools of both variants are fixed integer ranges independent of the
grid, so walled cells are candidates too.  Only the sparse pool excludes
both the entrance and the exit, as the last three conjuncts show. -/
theorem c3_candidate_pools :
    (2 * 2 - 1) ∈ Code.candidatePool 2 ∧
    Code.candidatePool 2 = [1, 2, 3] ∧
    (0 : Nat) ∉ Code.candidatePool 2 ∧
    (0 : Nat) ∉ MazeCode.candidatePool 2 ∧
    (2 * 2 - 1) ∉ MazeCode.candidatePool 2 := by decide

/-- C6 counterexample: the claim says `carve` defaults `max_failures` to the
grid's linear dimension, but the dense `generate_maze` has the fixed
default `iter_num: int = 10`; on a `3x3` grid the linear dimension is `3`,
not `10`. -/
theorem c6_counterexample :
    Code.resolveIterNum none = 10 ∧ Code.resolveIterNum none ≠ 3 := by decide

/-- C6 amended: the sparse `generate_maze` defaults `iter_num` to
`maze.shape[0]`, the linear dimension, while the dense variant uses the
constant `10` regardless of the grid. -/
theorem c6_iter_num_defaults :
    (∀ h : Nat, MazeCode.resolveIterNum none h = h) ∧
    Code.resolveIterNum none = 10 :=
  ⟨fun _ => rfl, rfl⟩

/-- C7 counterexample: the claim quantifies over every graph state, but the
dense rollback restores the column of `num` from the saved *row*, so on an
asymmetric matrix the round trip is not the identity: disabling node `1` of
`asymM` and restoring it turns entry `(0, 1)` from `0` into `1`. -/
theorem c7_counterexample :
    Code.restore_node 1 (Code.row_copy 1 asymM) (Code.disable_node 1 asymM) 0 1
      ≠ asymM 0 1 := by decide

/-- C7 amended: the disable/restore round trip of the dense variant is the
identity on symmetric matrices (which every matrix arising in carving is,
being an `incident` matrix), and the round trip of the sparse variant is
the identity on the effective matrix whenever the stored entries of the
disabled column hold `1` (as they do in carving, where each column is
zeroed at most once and restored immediately). -/
theorem c7_roundtrip (num : Nat) (M : Nat → Nat → Bool) (G : MazeCode.SGraph)
    (hsym : ∀ x y, M x y = M y x)
    (hcol : ∀ x, G.stored x num = true → G.data x num = true) :
    (∀ x y, Code.restore_node num (Code.row_copy num M)
      (Code.disable_node num M) x y = M x y) ∧
    (∀ x y, (MazeCode.restore_node num (MazeCode.disable_node num G)).eff x y
      = G.eff x y) := by
  constructor
  · intro x y
    unfold Code.restore_node Code.row_copy Code.disable_node
    by_cases hy : y = num
    · rw [if_pos hy, hy]
      exact hsym num x
    · by_cases hx : x = num
      · rw [if_neg hy, if_pos hx, hx]
      · simp [hx, hy]
  · intro x y
    unfold MazeCode.restore_node MazeCode.disable_node MazeCode.SGraph.eff
    by_cases hy : y = num
    · simp only [if_pos hy]
      rw [hy]
      cases hst : G.stored x num
      · simp
      · simp [hcol x hst]
    · simp [if_neg hy]

/-- C7 witness: the round trip at the concrete symmetric matrix of the open
`2x2` grid and at the CSR matrix with all data set, disabling node `1`. -/
theorem c7_roundtrip_witness :
    (∀ x y, Code.restore_node 1 (Code.row_copy 1 (incident 2 2 fun _ _ => false))
      (Code.disable_node 1 (incident 2 2 fun _ _ => false)) x y
        = incident 2 2 (fun _ _ => false) x y) ∧
    (∀ x y, (MazeCode.restore_node 1 (MazeCode.disable_node 1
        ⟨incident 2 2 fun _ _ => false, fun _ _ => true⟩)).eff x y
      = (⟨incident 2 2 fun _ _ => false, fun _ _ => true⟩ : MazeCode.SGraph).eff x y) :=
  c7_roundtrip 1 (incident 2 2 fun _ _ => false)
    ⟨incident 2 2 fun _ _ => false, fun _ _ => true⟩
    (fun x y => incident_symm 2 2 (fun _ _ => false) x y)
    (fun _ _ => rfl)

/-- C8: both carving loops terminate for every input and every `iter_num`,
because every iteration consumes one candidate of the finite shuffled pool:
the fuel-indexed loops, which charge one unit per guard test and answer
`none` on fuel exhaustion, complete within `length + 1` guard tests and
return exactly the total-loop result, for arbitrary `iter_num`. -/
theorem c8_carve_terminates (w n iterNum : Nat) :
    (∀ (order : List Nat) (s : Code.DState),
      Code.generate_loop_fuel w n iterNum (order.length + 1) order s
        = some (Code.generate_loop w n iterNum order s)) ∧
    (∀ (order : List Nat) (s : MazeCode.SState),
      MazeCode.generate_loop_fuel w n iterNum (order.length + 1) order s
        = some (MazeCode.generate_loop w n iterNum order s)) :=
  ⟨Code.dense_loop_fuel_of_length w n iterNum,
    MazeCode.sparse_loop_fuel_of_length w n iterNum⟩

/-- C4: whenever `find_shortest_path` returns a non-empty sequence, that
sequence begins at the start node, ends at the end node, has every
consecutive pair adjacent in the matrix, and no walk from start to end has
strictly fewer edges (a walk of `q.length` nodes has `q.length - 1` edges,
so the length comparison is the edge-count comparison).  The matrix is
assumed to relate only in-range nodes, as every `n x n` numpy matrix
does. -/
theorem c4_find_shortest_path_correct (n startN endN : Nat)
    (adj : Nat → Nat → Bool)
    (hadj : ∀ u v, adj u v = true → u < n ∧ v < n) (hs : startN < n)
    (hne : find_shortest_path n adj startN endN ≠ []) :
    (find_shortest_path n adj startN endN).head? = some startN ∧
    (find_shortest_path n adj startN endN).getLast? = some endN ∧
    (find_shortest_path n adj startN endN).Chain' (fun a b => adj a b = true) ∧
    ∀ q, IsPathList adj startN endN q →
      (find_shortest_path n adj startN endN).length ≤ q.length := by
  have hspec := (find_shortest_path_spec n startN endN adj hadj hs).2 hne
  exact ⟨hspec.1.2.1, hspec.1.2.2.1, hspec.1.2.2.2, hspec.2⟩

/-- C4 witness: on the incidence matrix of the open `2x2` grid the BFS from
node `0` to node `3` returns the non-empty path `[0, 1, 3]`, and the
theorem applies to it. -/
theorem c4_witness :
    find_shortest_path 4 (incident 2 2 fun _ _ => false) 0 3 ≠ [] ∧
    ((find_shortest_path 4 (incident 2 2 fun _ _ => false) 0 3).head? = some 0 ∧
     (find_shortest_path 4 (incident 2 2 fun _ _ => false) 0 3).getLast? = some 3 ∧
     (find_shortest_path 4 (incident 2 2 fun _ _ => false) 0 3).Chain'
       (fun a b => incident 2 2 (fun _ _ => false) a b = true) ∧
     ∀ q, IsPathList (incident 2 2 fun _ _ => false) 0 3 q →
       (find_shortest_path 4 (incident 2 2 fun _ _ => false) 0 3).length ≤ q.length) := by
  have hne : find_shortest_path 4 (incident 2 2 fun _ _ => false) 0 3 ≠ [] := by decide
  refine ⟨hne, c4_find_shortest_path_correct 4 0 3 (incident 2 2 fun _ _ => false)
    (fun u v huv => ⟨(incident_bounds 2 2 _ u v huv).1,
      (incident_bounds 2 2 _ u v huv).2.1⟩) (by omega) hne⟩

/-- C10: when the end node is unreachable from the start node,
`find_shortest_path` returns the empty sequence (and, being a total
function, raises nothing): the empty result is the normal outcome
signalling unreachability. -/
theorem c10_unreachable_returns_empty (n startN endN : Nat)
    (adj : Nat → Nat → Bool)
    (hadj : ∀ u v, adj u v = true → u < n ∧ v < n) (hs : startN < n)
    (hunreach : ¬ Reachable adj startN endN) :
    find_shortest_path n adj startN endN = [] := by
  by_contra hne
  exact hunreach
    ⟨_, ((find_shortest_path_spec n startN endN adj hadj hs).2 hne).1⟩

/-- C10 witness: on the disconnected `2x2` grid the exit node `3` is
unreachable from the entrance node `0` and the BFS returns `[]`. -/
theorem c10_witness :
    (¬ Reachable (incident 2 2 discGrid) 0 3) ∧
    find_shortest_path 4 (incident 2 2 discGrid) 0 3 = [] := by
  have hadj : ∀ u v, incident 2 2 discGrid u v = true → u < 4 ∧ v < 4 :=
    fun u v huv => ⟨(incident_bounds 2 2 _ u v huv).1,
      (incident_bounds 2 2 _ u v huv).2.1⟩
  have hnr : ¬ Reachable (incident 2 2 discGrid) 0 3 :=
    (find_shortest_path_spec 4 0 3 (incident 2 2 discGrid) hadj (by omega)).1
      (by decide)
  exact ⟨hnr, c10_unreachable_returns_empty 4 0 3 (incident 2 2 discGrid)
    hadj (by omega) hnr⟩

/-- C5 counterexample: the claim quantifies over every start/end pair, but
on the open `1x2` grid with `start_node = end_node = 0` the dense
queue-based `shortest_check` answers `True` (the start is dequeued and
immediately equals the end) while the sparse matrix-multiplication
`shortest_check` answers `False` (it only tests `possible[end_node]` after
a multiplication, and the single allowed multiplication moves away from
node `0`). -/
theorem c5_counterexample :
    (Code.shortest_check 2 (incident 1 2 fun _ _ => false) 0 0).1 = true ∧
    MazeCode.shortest_check 2 (incident 1 2 fun _ _ => false) 0 0 = false := by
  constructor
  · decide
  · decide

/-- C5 amended: on the incidence matrix of any grid, for every start/end
pair with `start_node ≠ end_node` (in particular for the default entrance
and exit of any maze with at least two cells), the dense queue-based check
and the sparse matrix-multiplication check return the same boolean. -/
theorem c5_checks_agree (h w : Nat) (g : Nat → Nat → Bool) (startN endN : Nat)
    (hs : startN < h * w) (hne : startN ≠ endN) :
    (Code.shortest_check (h * w) (incident h w g) startN endN).1
      = MazeCode.shortest_check (h * w) (incident h w g) startN endN := by
  have hadj : ∀ u v, incident h w g u v = true → u < h * w ∧ v < h * w :=
    fun u v huv => ⟨(incident_bounds h w g u v huv).1,
      (incident_bounds h w g u v huv).2.1⟩
  have hsym : ∀ u v, incident h w g u v = incident h w g v u :=
    incident_symm h w g
  have hspec := Code.shortest_check_spec (h * w) startN endN (incident h w g)
    hadj hsym hs
  have hsparse_of_reach : Reachable (incident h w g) startN endN →
      MazeCode.shortest_check (h * w) (incident h w g) startN endN = true := by
    rintro ⟨p, hp⟩
    obtain ⟨q, hq, _, hqnd⟩ := path_shorten p hp
    have hqlt : ∀ v ∈ q, v < h * w := hq.nodes_lt hadj hs
    have hqlen : q.length ≤ h * w := nodup_length_le q (h * w) hqnd hqlt
    have hqlen2 : 2 ≤ q.length := by
      by_contra hlt
      push_neg at hlt
      have h1 : q.length = 1 := by have := hq.length_pos; omega
      exact hne (hq.eq_of_length_one h1)
    rw [MazeCode.shortest_check_true_iff]
    refine ⟨q.length - 1, by omega, by omega, ?_⟩
    exact rwalk_of_path hsym hadj q.length q endN (le_refl _) hq
  have hreach_of_sparse :
      MazeCode.shortest_check (h * w) (incident h w g) startN endN = true →
      Reachable (incident h w g) startN endN := by
    intro hsp
    obtain ⟨j, _, _, hrw⟩ := (MazeCode.shortest_check_true_iff _ _ _ _).1 hsp
    obtain ⟨p, hp, _⟩ := path_of_rwalk hsym j endN hrw
    exact ⟨p, hp⟩
  cases hd : (Code.shortest_check (h * w) (incident h w g) startN endN).1
  · cases hsp : MazeCode.shortest_check (h * w) (incident h w g) startN endN
    · rfl
    · exact absurd (hreach_of_sparse hsp) (hspec.1 hd)
  · cases hsp : MazeCode.shortest_check (h * w) (incident h w g) startN endN
    · have hr : Reachable (incident h w g) startN endN :=
        ⟨_, (hspec.2 hd).1⟩
      rw [hsparse_of_reach hr] at hsp
      cases hsp
    · rfl

/-- C5 witness: on the open `2x2` grid with the default entrance `0` and
exit `3` both checks answer the same boolean. -/
theorem c5_witness :
    (0 : Nat) < 2 * 2 ∧ (0 : Nat) ≠ 3 ∧
    (Code.shortest_check (2 * 2) (incident 2 2 fun _ _ => false) 0 3).1
      = MazeCode.shortest_check (2 * 2) (incident 2 2 fun _ _ => false) 0 3 :=
  ⟨by omega, by omega, c5_checks_agree 2 2 (fun _ _ => false) 0 3 (by omega) (by omega)⟩

/-- C1: for every square input grid whose incidence graph has the exit node
`w*w - 1` reachable from the entrance node `0`, the grid returned by
`generate_maze` still has the exit reachable from the entrance — for every
candidate order drawn from the respective candidate pool, every `iter_num`
(including the defaults), and in both variants.  The dense variant
preserves a valid entrance-to-exit path across commits and rollbacks; the
sparse variant re-checks solvability through the column-disabled matrix,
whose answer coincides with reachability of the mutated grid. -/
theorem c1_carve_preserves_reachability (w : Nat) (g : Nat → Nat → Bool)
    (iterNum : Option Nat) (orderD orderS : List Nat) (hw : 2 ≤ w)
    (hordD : ∀ num ∈ orderD, num ∈ Code.candidatePool w)
    (hordS : ∀ num ∈ orderS, num ∈ MazeCode.candidatePool w)
    (hreach : Reachable (incident w w g) 0 (w * w - 1)) :
    Reachable (incident w w (Code.generate_maze w g iterNum orderD).grid)
      0 (w * w - 1) ∧
    Reachable (incident w w (MazeCode.generate_maze w g iterNum orderS).grid)
      0 (w * w - 1) := by
  have hww : 4 ≤ w * w := by nlinarith
  have hadjg : ∀ u v, incident w w g u v = true → u < w * w ∧ v < w * w :=
    fun u v huv => ⟨(incident_bounds w w g u v huv).1,
      (incident_bounds w w g u v huv).2.1⟩
  constructor
  · -- dense variant
    have hcondD : ∀ num ∈ orderD, 1 ≤ num ∧ num < w * w := by
      intro num hnum
      have := hordD num hnum
      rw [Code.candidatePool, List.mem_range'_1] at this
      omega
    have hspec := Code.shortest_check_spec (w * w) 0 (w * w - 1)
      (incident w w g) hadjg (incident_symm w w g) (by omega)
    have hp0 : IsPathList (incident w w g) 0 (w * w - 1)
        (Code.shortest_check (w * w) (incident w w g) 0 (w * w - 1)).2 := by
      cases hc : (Code.shortest_check (w * w) (incident w w g) 0 (w * w - 1)).1
      · exact absurd hreach (hspec.1 hc)
      · exact (hspec.2 hc).1
    have hinit : Code.DInv w
          ⟨g, incident w w g,
            (Code.shortest_check (w * w) (incident w w g) 0 (w * w - 1)).2, 0⟩ ∧
        IsPathList (incident w w g) 0 (w * w - 1)
          (Code.shortest_check (w * w) (incident w w g) 0 (w * w - 1)).2 :=
      ⟨⟨rfl, Or.inr hp0⟩, hp0⟩
    have hfin := @Code.dense_loop_pres w (w * w) (Code.resolveIterNum iterNum)
      (fun s => Code.DInv w s ∧ IsPathList s.mat 0 (w * w - 1) s.path)
      (fun num => 1 ≤ num ∧ num < w * w)
      (fun s num hc hP =>
        ⟨(Code.generate_step_inv hc.1 hc.2 hP.1).1,
         (Code.generate_step_inv hc.1 hc.2 hP.1).2 hP.2⟩)
      orderD _ hcondD hinit
    have hsync := hfin.1.1
    have hvalid := hfin.2
    rw [hsync] at hvalid
    exact ⟨_, hvalid⟩
  · -- sparse variant
    have hcondS : ∀ num ∈ orderS, 1 ≤ num ∧ num ≤ w * w - 2 := by
      intro num hnum
      have := hordS num hnum
      rw [MazeCode.candidatePool, List.mem_range'_1] at this
      omega
    have heff0 : ∀ x y,
        MazeCode.SGraph.eff ⟨incident w w g, fun _ _ => true⟩ x y
          = (incident w w g x y && !(g (y / w) (y % w))) := by
      intro x y
      show (incident w w g x y && true)
        = (incident w w g x y && !(g (y / w) (y % w)))
      cases hi : incident w w g x y
      · rfl
      · rw [(incident_bounds w w g x y hi).2.2.2]
        rfl
    have hinit : MazeCode.SInv w g ⟨g, ⟨incident w w g, fun _ _ => true⟩, 0⟩ :=
      ⟨⟨fun _ _ => rfl, heff0⟩, fun _ _ hc => hc, hreach⟩
    have hfin := @MazeCode.sparse_loop_pres w (w * w)
      (MazeCode.resolveIterNum iterNum w) (MazeCode.SInv w g)
      (fun num => 1 ≤ num ∧ num ≤ w * w - 2)
      (fun s num hc hP => MazeCode.generate_step_sinv hw hc.1 hc.2 hP)
      orderS _ hcondS hinit
    exact hfin.2.2

lemma open2x2_reachable : Reachable (incident 2 2 fun _ _ => false) 0 (2 * 2 - 1) := by
  refine ⟨[0, 1, 3], ⟨by decide, by decide, by decide, ?_⟩⟩
  rw [List.chain'_cons, List.chain'_cons]
  exact ⟨by decide, by decide, List.chain'_singleton _⟩

/-- C1 witness: carving the open `2x2` grid with the full pools as orders
and the default `iter_num` keeps the exit reachable in both variants. -/
theorem c1_witness :
    Reachable (incident 2 2 fun _ _ => false) 0 (2 * 2 - 1) ∧
    (Reachable (incident 2 2
        (Code.generate_maze 2 (fun _ _ => false) none [1, 2, 3]).grid)
      0 (2 * 2 - 1) ∧
     Reachable (incident 2 2
        (MazeCode.generate_maze 2 (fun _ _ => false) none [1, 2]).grid)
      0 (2 * 2 - 1)) :=
  ⟨open2x2_reachable,
    c1_carve_preserves_reachability 2 (fun _ _ => false) none [1, 2, 3] [1, 2]
      (by omega) (by decide) (by decide) open2x2_reachable⟩

/-- C2 counterexample: carving the open `2x2` grid with the sparse variant
and committing node `1` leaves the stored entry `(1, 0)` effective in the
matrix although cell `1` is now a wall, so the edge set is not derivable
from the grid: only the column of the disabled node is zeroed, its row
entries go stale. -/
theorem c2_counterexample :
    (MazeCode.generate_maze 2 (fun _ _ => false) none [1]).grid 0 1 = true ∧
    (MazeCode.generate_maze 2 (fun _ _ => false) none [1]).graph.eff 1 0 = true ∧
    incident 2 2 (MazeCode.generate_maze 2 (fun _ _ => false) none [1]).grid 1 0
      = false := by
  refine ⟨by decide, by decide, by decide⟩

/-- C2 amended: after each committed or rolled-back candidate (state after
the first `k` candidates, any `k`), the dense variant keeps the matrix
exactly equal to the incidence matrix of the current grid; the sparse
variant keeps only the weaker column synchronisation: an effective entry
`(x, y)` exists iff it is an edge of the template and the cell of the
column index `y` is open — walling a cell removes all entries into it, but
entries out of it survive in the matrix. -/
theorem c2_graph_grid_sync (w k : Nat) (g : Nat → Nat → Bool)
    (iterNum : Option Nat) (orderD orderS : List Nat) (hw : 1 ≤ w)
    (hordD : ∀ num ∈ orderD, num ∈ Code.candidatePool w) :
    ((Code.generate_maze_partial w g iterNum orderD k).mat
      = incident w w (Code.generate_maze_partial w g iterNum orderD k).grid) ∧
    (∀ x y, (MazeCode.generate_maze_partial w g iterNum orderS k).graph.eff x y
      = (incident w w g x y &&
        !((MazeCode.generate_maze_partial w g iterNum orderS k).grid
          (y / w) (y % w)))) := by
  constructor
  · -- dense variant: exact synchronisation
    have hadjg : ∀ u v, incident w w g u v = true → u < w * w ∧ v < w * w :=
      fun u v huv => ⟨(incident_bounds w w g u v huv).1,
        (incident_bounds w w g u v huv).2.1⟩
    have hspec := Code.shortest_check_spec (w * w) 0 (w * w - 1)
      (incident w w g) hadjg (incident_symm w w g) (by nlinarith)
    have hp0 : (Code.shortest_check (w * w) (incident w w g) 0 (w * w - 1)).2 = []
        ∨ IsPathList (incident w w g) 0 (w * w - 1)
        (Code.shortest_check (w * w) (incident w w g) 0 (w * w - 1)).2 := by
      cases hc : (Code.shortest_check (w * w) (incident w w g) 0 (w * w - 1)).1
      · exact Or.inl (bnot_isEmpty_eq_false hc)
      · exact Or.inr (hspec.2 hc).1
    have hcond : ∀ num ∈ orderD.take k, 1 ≤ num ∧ num < w * w := by
      intro num hnum
      have := hordD num (List.take_subset k orderD hnum)
      rw [Code.candidatePool, List.mem_range'_1] at this
      omega
    have hfin := @Code.dense_loop_pres w (w * w)
      (Code.resolveIterNum iterNum) (Code.DInv w)
      (fun num => 1 ≤ num ∧ num < w * w)
      (fun s num hc hP => (Code.generate_step_inv hc.1 hc.2 hP).1)
      (orderD.take k)
      ⟨g, incident w w g,
        (Code.shortest_check (w * w) (incident w w g) 0 (w * w - 1)).2, 0⟩
      hcond ⟨rfl, hp0⟩
    exact hfin.1
  · -- sparse variant: column synchronisation, for any candidate order
    have heff0 : ∀ x y,
        MazeCode.SGraph.eff ⟨incident w w g, fun _ _ => true⟩ x y
          = (incident w w g x y && !(g (y / w) (y % w))) := by
      intro x y
      show (incident w w g x y && true)
        = (incident w w g x y && !(g (y / w) (y % w)))
      cases hi : incident w w g x y
      · rfl
      · rw [(incident_bounds w w g x y hi).2.2.2]
        rfl
    have hfin := @MazeCode.sparse_loop_pres w (w * w)
      (MazeCode.resolveIterNum iterNum w) (MazeCode.SSync w g) (fun _ => True)
      (fun s num _ hP => MazeCode.sync_step hP)
      (orderS.take k) ⟨g, ⟨incident w w g, fun _ _ => true⟩, 0⟩
      (fun _ _ => trivial) ⟨fun _ _ => rfl, heff0⟩
    exact hfin.2

/-- C2 witness: the synchronisation statement at the open `2x2` grid, one
processed candidate, orders `[1, 2, 3]` and `[1]`. -/
theorem c2_witness :
    ((Code.generate_maze_partial 2 (fun _ _ => false) none [1, 2, 3] 1).mat
      = incident 2 2
        (Code.generate_maze_partial 2 (fun _ _ => false) none [1, 2, 3] 1).grid) ∧
    (∀ x y, (MazeCode.generate_maze_partial 2 (fun _ _ => false) none [1] 1).graph.eff x y
      = (incident 2 2 (fun _ _ => false) x y &&
        !((MazeCode.generate_maze_partial 2 (fun _ _ => false) none [1] 1).grid
          (y / 2) (y % 2)))) :=
  c2_graph_grid_sync 2 1 (fun _ _ => false) none [1, 2, 3] [1]
    (by omega) (by decide)

/-- C9 counterexample: on the disconnected `2x2` grid (`discGrid`), where
the exit is unreachable from the entrance before carving begins, neither
variant fails fast: the dense variant silently commits every candidate
(its initial `shortest_check` result is computed but never tested, and the
stored path is empty, so no candidate triggers a re-check), returning the
grid with every candidate cell walled; the sparse variant rolls every
candidate back — re-opening the two template walls in the process — and
returns the fully open grid. -/
theorem c9_counterexample :
    (¬ Reachable (incident 2 2 discGrid) 0 (2 * 2 - 1)) ∧
    (∀ r, r < 2 → ∀ c, c < 2 →
      (Code.generate_maze 2 discGrid none [1, 2, 3]).grid r c
        = decide (¬(r = 0 ∧ c = 0))) ∧
    (∀ r, r < 2 → ∀ c, c < 2 →
      (MazeCode.generate_maze 2 discGrid none [1, 2]).grid r c = false) := by
  have hadj : ∀ u v, incident 2 2 discGrid u v = true → u < 4 ∧ v < 4 :=
    fun u v huv => ⟨(incident_bounds 2 2 _ u v huv).1,
      (incident_bounds 2 2 _ u v huv).2.1⟩
  refine ⟨(find_shortest_path_spec 4 0 (2 * 2 - 1) (incident 2 2 discGrid) hadj
    (by omega)).1 (by decide), by decide, by decide⟩

/-- C9 amended: `generate_maze` performs no connectivity error check on its
input.  When the input grid is already disconnected, the dense variant
(shown here; the counterexample covers the sparse variant concretely)
proceeds through the entire candidate order, committing every candidate
without a single reachability test, and silently returns the grid with
every candidate cell walled. -/
theorem c9_no_failfast (w iterNum : Nat) (g : Nat → Nat → Bool)
    (order : List Nat) (hw : 1 ≤ w) (hiter : 1 ≤ iterNum)
    (hnr : ¬ Reachable (incident w w g) 0 (w * w - 1)) :
    (Code.generate_maze w g (some iterNum) order).grid
      = order.foldl (fun gr num => wallCell w num gr) g := by
  have hadjg : ∀ u v, incident w w g u v = true → u < w * w ∧ v < w * w :=
    fun u v huv => ⟨(incident_bounds w w g u v huv).1,
      (incident_bounds w w g u v huv).2.1⟩
  have hspec := Code.shortest_check_spec (w * w) 0 (w * w - 1)
    (incident w w g) hadjg (incident_symm w w g) (by nlinarith)
  have hp0 : (Code.shortest_check (w * w) (incident w w g) 0 (w * w - 1)).2 = [] := by
    cases hc : (Code.shortest_check (w * w) (incident w w g) 0 (w * w - 1)).1
    · exact bnot_isEmpty_eq_false hc
    · exact absurd ⟨_, (hspec.2 hc).1⟩ hnr
  have hloop : ∀ (ord : List Nat) (s : Code.DState), s.path = [] → s.ns = 0 →
      (Code.generate_loop w (w * w) iterNum ord s).grid
        = ord.foldl (fun gr num => wallCell w num gr) s.grid := by
    intro ord
    induction ord with
    | nil => intro s _ _; rfl
    | cons num rest ih =>
      intro s hp hns
      rw [Code.generate_loop, if_pos (by omega)]
      have hstep : Code.generate_step w (w * w) s num =
          ⟨wallCell w num s.grid,
            fun x y => if x = num ∨ y = num then false else s.mat x y,
            s.path, s.ns⟩ := by
        rw [Code.generate_step, if_neg (by rw [hp]; simp)]
      rw [hstep]
      exact ih _ hp hns
  show (Code.generate_loop w (w * w) (Code.resolveIterNum (some iterNum)) order
    ⟨g, incident w w g,
      (Code.shortest_check (w * w) (incident w w g) 0 (w * w - 1)).2, 0⟩).grid = _
  exact hloop order _ hp0 rfl

/-- C9 witness: the amended statement at the disconnected `2x2` grid with
`iter_num = 10` and the full dense candidate pool as order. -/
theorem c9_witness :
    (¬ Reachable (incident 2 2 discGrid) 0 (2 * 2 - 1)) ∧
    (Code.generate_maze 2 discGrid (some 10) [1, 2, 3]).grid
      = [1, 2, 3].foldl (fun gr num => wallCell 2 num gr) discGrid := by
  have hadj : ∀ u v, incident 2 2 discGrid u v = true → u < 4 ∧ v < 4 :=
    fun u v huv => ⟨(incident_bounds 2 2 _ u v huv).1,
      (incident_bounds 2 2 _ u v huv).2.1⟩
  have hnr : ¬ Reachable (incident 2 2 discGrid) 0 (2 * 2 - 1) :=
    (find_shortest_path_spec 4 0 (2 * 2 - 1) (incident 2 2 discGrid) hadj
      (by omega)).1 (by decide)
  exact ⟨hnr, c9_no_failfast 2 10 discGrid [1, 2, 3] (by omega) (by omega) hnr⟩
